import Mathlib

/-!
Verification development for the recipe-normalization core of the
anylist-mcp repository.  The JavaScript module (recipe-parser) is embedded
shallowly: strings are Lean `String`s (lists of characters), JavaScript
values appearing in JSON-LD blocks and loosely-typed recipe objects are
modelled by the inductive type `JVal`, and code that can raise a JavaScript
exception is modelled with `Except`.  Regular-expression scans of the source
are translated into explicit character-list scanners with the same matching
semantics (leftmost match, one-character advance on failure, global
continuation after each match).  Scanners that advance by more than one
character use an explicit fuel argument (always called with fuel at least
the length of the input, so the fuel-exhaustion branch is unreachable);
this keeps every definition reducible by the kernel.
-/

namespace AnylistSpec

/-- The set of characters matched by the JavaScript regex class `\s` and
removed by `String.prototype.trim` (ASCII whitespace plus the common
Unicode space characters). -/
def isJsWs (c : Char) : Bool :=
  c = ' ' ∨ c = '\t' ∨ c = '\n' ∨ c = '\r' ∨ c = '\x0b' ∨ c = '\x0c' ∨
  c = ' ' ∨ c = ' ' ∨ c = ' ' ∨ c = ' ' ∨ c = ' ' ∨
  c = ' ' ∨ c = ' ' ∨ c = ' ' ∨ c = ' ' ∨ c = ' ' ∨
  c = ' ' ∨ c = ' ' ∨ c = ' ' ∨ c = ' ' ∨ c = ' ' ∨
  c = ' ' ∨ c = ' ' ∨ c = '　' ∨ c = '﻿'

/-- Drop leading and trailing JavaScript whitespace (model of `.trim()`). -/
def trimL (l : List Char) : List Char :=
  ((l.dropWhile isJsWs).reverse.dropWhile isJsWs).reverse

/-- `String` version of `trimL`. -/
def jsTrim (s : String) : String := ⟨trimL s.data⟩

/-- Model of `.replace(/\s+/g, ' ')`: every maximal run of whitespace
characters is replaced by a single space. -/
def collapseWs : List Char → List Char
  | [] => []
  | c :: rest =>
    if isJsWs c then
      match rest with
      | [] => [' ']
      | d :: _ => if isJsWs d then collapseWs rest else ' ' :: collapseWs rest
    else c :: collapseWs rest

/-- Model of a global literal-string replace `.replace(/pat/g, rep)` for a
non-empty literal pattern: non-overlapping, left to right.  The fuel is
decremented once per examined position. -/
def replaceSubF (pat rep : List Char) : Nat → List Char → List Char
  | _, [] => []
  | 0, l => l
  | fuel + 1, c :: rest =>
    if pat.isPrefixOf (c :: rest) then
      rep ++ replaceSubF pat rep fuel ((c :: rest).drop pat.length)
    else c :: replaceSubF pat rep fuel rest

/-- Global literal replace; an empty pattern never occurs in the source and
is modelled as the identity. -/
def replaceSub (pat rep l : List Char) : List Char :=
  match pat with
  | [] => l
  | _ :: _ => replaceSubF pat rep l.length l

/-- Model of `.replace(/<[^>]+>/g, rep)`: a `<` followed by at least one
non-`>` character and then `>` is replaced by `rep` (removal when `rep`
is empty, a space in `stripHtml`). -/
def replaceTags (rep : List Char) : Nat → List Char → List Char
  | _, [] => []
  | 0, l => l
  | fuel + 1, c :: rest =>
    if c = '<' then
      match rest.takeWhile (fun d => ¬(d = '>')), rest.dropWhile (fun d => ¬(d = '>')) with
      | _ :: _, '>' :: after => rep ++ replaceTags rep fuel after
      | _, _ => c :: replaceTags rep fuel rest
    else c :: replaceTags rep fuel rest

/-- Model of `.replace(/&#\d+;/g, '')`: `&#`, one or more digits, `;`. -/
def stripDigitEntities : Nat → List Char → List Char
  | _, [] => []
  | 0, l => l
  | fuel + 1, '&' :: '#' :: rest =>
    (match rest.takeWhile Char.isDigit, rest.dropWhile Char.isDigit with
     | _ :: _, ';' :: after => stripDigitEntities fuel after
     | _, _ => '&' :: stripDigitEntities fuel ('#' :: rest))
  | fuel + 1, c :: rest => c :: stripDigitEntities fuel rest

/-- The entity-decoding, tag-stripping and whitespace-collapsing passes of
`cleanText`, before the final trim. -/
def cleanTextCore (l : List Char) : List Char :=
  let l1 := replaceSub "&amp;".data "&".data l
  let l2 := replaceSub "&lt;".data "<".data l1
  let l3 := replaceSub "&gt;".data ">".data l2
  let l4 := replaceSub "&quot;".data "\"".data l3
  let l5 := replaceSub "&#39;".data "'".data l4
  let l6 := replaceSub "&nbsp;".data " ".data l5
  let l7 := stripDigitEntities l6.length l6
  let l8 := replaceTags [] l7.length l7
  collapseWs l8

/-- `cleanText` from the source, on character lists: decode the six handled
HTML entities, drop numeric entities, strip tags, collapse whitespace,
trim. -/
def cleanTextL (l : List Char) : List Char :=
  trimL (cleanTextCore l)

/-- The shared text-cleaning utility `cleanText` of the source. -/
def cleanText (s : String) : String := ⟨cleanTextL s.data⟩

/-- `stripHtml` from the source: tags become spaces, whitespace is
collapsed; no trimming. -/
def stripHtml (s : String) : String :=
  ⟨collapseWs (replaceTags " ".data s.data.length s.data)⟩

/-- Model of `"s".split(/\n/)`: split at every newline, keeping empty
pieces. -/
def splitNl : List Char → List (List Char)
  | [] => [[]]
  | '\n' :: rest => [] :: splitNl rest
  | c :: rest =>
    match splitNl rest with
    | h :: t => (c :: h) :: t
    | [] => [[c]]

/-- Model of `"s".split(/\n+/)`: split at every maximal run of newlines,
keeping empty leading/trailing pieces. -/
def splitNlRunsF : Nat → List Char → List (List Char)
  | _, [] => [[]]
  | 0, l => [l]
  | fuel + 1, '\n' :: rest =>
    [] :: splitNlRunsF fuel (rest.dropWhile (fun c => c = '\n'))
  | fuel + 1, c :: rest =>
    match splitNlRunsF fuel rest with
    | h :: t => (c :: h) :: t
    | [] => [[c]]

def splitNlRuns (l : List Char) : List (List Char) := splitNlRunsF l.length l

/-! ## The canonical recipe record and the error taxonomy -/
/-- One ingredient entry `{ rawIngredient: string }`. -/
structure Ingredient where
  rawIngredient : String
deriving DecidableEq, Repr

/-- The canonical recipe record: the sole output shape of every pipeline. -/
structure Recipe where
  name : String
  ingredients : List Ingredient
  preparationSteps : List String
  note : Option String
  sourceName : Option String
  sourceUrl : Option String
  prepTime : Option String
  cookTime : Option String
  servings : Option String
deriving DecidableEq, Repr

/-- The errors thrown by the extraction core.  `typeError` models a
JavaScript `TypeError` raised by calling a string method on a non-string
truthy value. -/
inductive PErr where
  | invalidInput
  | emptyInput
  | extractionError (url : String)
  | typeError
deriving DecidableEq, Repr

/-! ## JavaScript values

JSON-parseable JavaScript values, used both for JSON-LD block contents and
for the loosely-typed recipe objects fed to the object normalizer.
Numbers are kept as their JSON lexeme (no numeric value in any claim
depends on float formatting). -/
inductive JVal where
  | jnull
  | jbool (b : Bool)
  | jnum (lexeme : String)
  | jstr (s : String)
  | jarr (items : List JVal)
  | jobj (fields : List (String × JVal))

/-- Is a JSON number lexeme numerically zero (its mantissa digits are all
`0`)?  `0`, `-0`, `0.00`, `0e9` are zero; anything with a nonzero mantissa
digit is not. -/
def numZero (lexeme : String) : Bool :=
  (lexeme.data.takeWhile (fun c => ¬(c = 'e' ∨ c = 'E'))).all
    (fun c => c = '-' ∨ c = '0' ∨ c = '.')

/-- JavaScript truthiness of a `JVal`. -/
def truthyJ : JVal → Bool
  | .jnull => false
  | .jbool b => b
  | .jnum l => ¬numZero l
  | .jstr s => ¬(s = "")
  | .jarr _ => true
  | .jobj _ => true

/-- Truthiness of a possibly-absent (`undefined`) value. -/
def otruthy : Option JVal → Bool
  | none => false
  | some v => truthyJ v

/-- JavaScript `a || b` on possibly-absent values. -/
def jsor (a b : Option JVal) : Option JVal := if otruthy a then a else b

mutual
/-- JavaScript `String(v)` conversion.  Arrays join their elements with
commas, `null` elements becoming empty; objects print as
`[object Object]`. -/
def jvalString : JVal → String
  | .jnull => "null"
  | .jbool b => if b then "true" else "false"
  | .jnum l => l
  | .jstr s => s
  | .jarr items => String.intercalate "," (jarrStrings items)
  | .jobj _ => "[object Object]"

def jarrStrings : List JVal → List String
  | [] => []
  | .jnull :: rest => "" :: jarrStrings rest
  | v :: rest => jvalString v :: jarrStrings rest
end

/-- First-match association lookup (object keys are unique: the JSON parser
keeps the last duplicate). -/
def jlookup : List (String × JVal) → String → Option JVal
  | [], _ => none
  | (k', v) :: rest, k => if k' = k then some v else jlookup rest k

/-- JavaScript property access `v[k]`: reading a property of `null` throws
a `TypeError`; reading a property of a primitive or an array yields
`undefined` (no named property of interest lives on those); reading from
an object looks the key up. -/
def jgetE (v : JVal) (k : String) : Except PErr (Option JVal) :=
  match v with
  | .jnull => .error .typeError
  | .jobj fs => .ok (jlookup fs k)
  | _ => .ok none

/-- `cleanText(x)` where `x` is a possibly-absent JavaScript value: falsy
values yield `""` (the `if (!text) return ''` guard), strings are cleaned,
and a truthy non-string throws a `TypeError` (`.replace` is not a
function). -/
def cleanTextF : Option JVal → Except PErr String
  | none => .ok ""
  | some .jnull => .ok ""
  | some (.jbool b) => if b then .error .typeError else .ok ""
  | some (.jnum l) => if numZero l then .ok "" else .error .typeError
  | some (.jstr s) => .ok (cleanText s)
  | some (.jarr _) => .error .typeError
  | some (.jobj _) => .error .typeError

/-- `s || null` for a string: empty becomes null. -/
def nullify (s : String) : Option String := if s = "" then none else some s

instance exceptDecEq {ε α : Type} [DecidableEq ε] [DecidableEq α] :
    DecidableEq (Except ε α) := fun a b =>
  match a, b with
  | .error e, .error f =>
    if h : e = f then .isTrue (by rw [h]) else .isFalse (by intro k; injection k; contradiction)
  | .error _, .ok _ => .isFalse (by intro k; injection k)
  | .ok _, .error _ => .isFalse (by intro k; injection k)
  | .ok a, .ok b =>
    if h : a = b then .isTrue (by rw [h]) else .isFalse (by intro k; injection k; contradiction)

/-! ## A model of `JSON.parse`

Recursive-descent parser for the JSON grammar: insignificant whitespace is
space/tab/newline/carriage-return; numbers follow the JSON number grammar
(and are stored as their lexeme); strings support the standard escapes
(`\uXXXX` surrogate pairs are combined; a lone surrogate, which Lean's
`Char` cannot represent, becomes U+FFFD — no claim involves one); duplicate
object keys keep the last occurrence, as in JavaScript. -/
def isJsonWs (c : Char) : Bool := c = ' ' ∨ c = '\t' ∨ c = '\n' ∨ c = '\r'

def skipJsonWs (l : List Char) : List Char := l.dropWhile isJsonWs

def isHexDigit (c : Char) : Bool :=
  c.isDigit ∨ ('a' ≤ c ∧ c ≤ 'f') ∨ ('A' ≤ c ∧ c ≤ 'F')

def hexVal (c : Char) : Nat :=
  if c.isDigit then c.toNat - 48
  else if 'a' ≤ c ∧ c ≤ 'f' then c.toNat - 87
  else c.toNat - 55

/-- Prepend decoded characters onto a string-body parse continuation. -/
def consCont (ds : List Char) :
    Option (List Char × List Char) → Option (List Char × List Char)
  | some (tl, rem) => some (ds ++ tl, rem)
  | none => none

/-- Decode the single-character JSON escapes. -/
def simpleEsc (e : Char) : Option Char :=
  if e = '"' then some '"'
  else if e = '\\' then some '\\'
  else if e = '/' then some '/'
  else if e = 'b' then some '\x08'
  else if e = 'f' then some '\x0c'
  else if e = 'n' then some '\n'
  else if e = 'r' then some '\r'
  else if e = 't' then some '\t'
  else none

/-- Parse the body of a JSON string (the opening quote already consumed).
Returns the decoded characters and the input after the closing quote. -/
def pStringBody : Nat → List Char → Option (List Char × List Char)
  | _, [] => none
  | 0, _ => none
  | fuel + 1, c :: rest =>
    if c = '"' then some ([], rest)
    else if c = '\\' then
      match rest with
      | [] => none
      | 'u' :: h1 :: h2 :: h3 :: h4 :: rest3 =>
        if isHexDigit h1 ∧ isHexDigit h2 ∧ isHexDigit h3 ∧ isHexDigit h4 then
          let n := ((hexVal h1 * 16 + hexVal h2) * 16 + hexVal h3) * 16 + hexVal h4
          -- combine a high surrogate with a following \uXXXX low surrogate
          if 0xD800 ≤ n ∧ n < 0xDC00 then
            match rest3 with
            | '\\' :: 'u' :: g1 :: g2 :: g3 :: g4 :: rest4 =>
              if isHexDigit g1 ∧ isHexDigit g2 ∧ isHexDigit g3 ∧ isHexDigit g4 then
                let m := ((hexVal g1 * 16 + hexVal g2) * 16 + hexVal g3) * 16 + hexVal g4
                if 0xDC00 ≤ m ∧ m < 0xE000 then
                  let cp := 0x10000 + (n - 0xD800) * 0x400 + (m - 0xDC00)
                  consCont [Char.ofNat cp] (pStringBody fuel rest4)
                else consCont ['�', Char.ofNat m] (pStringBody fuel rest4)
              else none
            | _ => consCont ['�'] (pStringBody fuel rest3)
          else if 0xDC00 ≤ n ∧ n < 0xE000 then
            consCont ['�'] (pStringBody fuel rest3)
          else consCont [Char.ofNat n] (pStringBody fuel rest3)
        else none
      | e :: rest2 =>
        (match simpleEsc e with
         | some d => consCont [d] (pStringBody fuel rest2)
         | none => none)
    else if c.toNat < 0x20 then none
    else consCont [c] (pStringBody fuel rest)

/-- Parse a JSON number at the head of the input, returning its lexeme. -/
def pNumber (l : List Char) : Option (List Char × List Char) :=
  let (signPart, l1) :=
    match l with
    | '-' :: r => (['-'], r)
    | _ => (([] : List Char), l)
  let intOk : Option (List Char × List Char) :=
    match l1 with
    | '0' :: r =>
      (match r with
       | d :: _ => if d.isDigit then none else some (['0'], r)
       | [] => some (['0'], []))
    | c :: _ =>
      if c.isDigit then some (l1.takeWhile Char.isDigit, l1.dropWhile Char.isDigit)
      else none
    | [] => none
  match intOk with
  | none => none
  | some (ip, l2) =>
    let fracOk : Option (List Char × List Char) :=
      match l2 with
      | '.' :: r =>
        (match r with
         | d :: _ =>
           if d.isDigit then some ('.' :: r.takeWhile Char.isDigit, r.dropWhile Char.isDigit)
           else none
         | [] => none)
      | _ => some ([], l2)
    match fracOk with
    | none => none
    | some (fp, l3) =>
      let expOk : Option (List Char × List Char) :=
        match l3 with
        | e :: r =>
          if e = 'e' ∨ e = 'E' then
            let (sp, r2) :=
              match r with
              | '+' :: r' => (['+'], r')
              | '-' :: r' => (['-'], r')
              | _ => (([] : List Char), r)
            (match r2 with
             | d :: _ =>
               if d.isDigit then
                 some (e :: sp ++ r2.takeWhile Char.isDigit, r2.dropWhile Char.isDigit)
               else none
             | [] => none)
          else some ([], l3)
        | [] => some ([], l3)
      match expOk with
      | none => none
      | some (ep, l4) => some (signPart ++ ip ++ fp ++ ep, l4)

/-- Replace or append a key in an object field list (later duplicate keys
win, as in `JSON.parse`). -/
def setField (fs : List (String × JVal)) (k : String) (v : JVal) :
    List (String × JVal) :=
  match fs with
  | [] => [(k, v)]
  | (k', v') :: rest =>
    if k' = k then (k', v) :: rest else (k', v') :: setField rest k v

mutual
/-- Parse one JSON value at the head of the (whitespace-skipped) input. -/
def pValue : Nat → List Char → Option (JVal × List Char)
  | 0, _ => none
  | fuel + 1, l =>
    match l with
    | 'n' :: 'u' :: 'l' :: 'l' :: rest => some (.jnull, rest)
    | 't' :: 'r' :: 'u' :: 'e' :: rest => some (.jbool true, rest)
    | 'f' :: 'a' :: 'l' :: 's' :: 'e' :: rest => some (.jbool false, rest)
    | '"' :: rest =>
      match pStringBody rest.length rest with
      | some (cs, rem) => some (.jstr ⟨cs⟩, rem)
      | none => none
    | '[' :: rest =>
      let r1 := skipJsonWs rest
      (match r1 with
       | ']' :: rem => some (.jarr [], rem)
       | _ => pArrayItems fuel r1 [])
    | '{' :: rest =>
      let r1 := skipJsonWs rest
      (match r1 with
       | '}' :: rem => some (.jobj [], rem)
       | _ => pObjectItems fuel r1 [])
    | _ =>
      match pNumber l with
      | some (lex, rem) => some (.jnum ⟨lex⟩, rem)
      | none => none

/-- Parse the items of a non-empty array, accumulating in order. -/
def pArrayItems : Nat → List Char → List JVal → Option (JVal × List Char)
  | 0, _, _ => none
  | fuel + 1, l, acc =>
    match pValue fuel l with
    | none => none
    | some (v, rem) =>
      match skipJsonWs rem with
      | ',' :: rem2 => pArrayItems fuel (skipJsonWs rem2) (acc ++ [v])
      | ']' :: rem2 => some (.jarr (acc ++ [v]), rem2)
      | _ => none

/-- Parse the members of a non-empty object. -/
def pObjectItems : Nat → List Char → List (String × JVal) →
    Option (JVal × List Char)
  | 0, _, _ => none
  | fuel + 1, l, acc =>
    match l with
    | '"' :: rest =>
      match pStringBody rest.length rest with
      | none => none
      | some (kcs, rem) =>
        match skipJsonWs rem with
        | ':' :: rem2 =>
          match pValue fuel (skipJsonWs rem2) with
          | none => none
          | some (v, rem3) =>
            let acc' := setField acc ⟨kcs⟩ v
            match skipJsonWs rem3 with
            | ',' :: rem4 => pObjectItems fuel (skipJsonWs rem4) acc'
            | '}' :: rem4 => some (.jobj acc', rem4)
            | _ => none
        | _ => none
    | _ => none
end

/-- `JSON.parse(s)`: parse one value surrounded by optional whitespace;
anything left over is an error.  `none` models a thrown `SyntaxError`. -/
def jparse (s : String) : Option JVal :=
  match pValue (4 * s.data.length + 16) (skipJsonWs s.data) with
  | some (v, rest) => if (skipJsonWs rest).isEmpty then some v else none
  | none => none

/-! ## The structured-data (JSON-LD) extractor -/
/-- Case-insensitive character equality (ASCII case folding, as the `/i`
regex flag gives for the patterns of the source, which are all ASCII). -/
def charCI (a b : Char) : Bool := a.toLower = b.toLower

/-- Case-insensitively strip a literal pattern off the head of the input. -/
def stripCI : List Char → List Char → Option (List Char)
  | [], l => some l
  | _ :: _, [] => none
  | p :: ps, c :: rest => if charCI p c then stripCI ps rest else none

/-- Does the literal pattern occur case-insensitively anywhere in `l`? -/
def containsCI (pat : List Char) : List Char → Bool
  | [] => (stripCI pat []).isSome
  | c :: rest => (stripCI pat (c :: rest)).isSome ∨ containsCI pat rest

/-- Find the earliest case-insensitive occurrence of `pat`; return the text
before it and the text after it. -/
def splitAtCI (pat : List Char) : List Char → Option (List Char × List Char)
  | [] =>
    (match stripCI pat [] with
     | some after => some ([], after)
     | none => none)
  | c :: rest =>
    match stripCI pat (c :: rest) with
    | some after => some ([], after)
    | none =>
      match splitAtCI pat rest with
      | some (pre, after) => some (c :: pre, after)
      | none => none

/-- Does a script open tag's attribute text (the characters between
`<script` and the first `>`) contain `type\s*=\s*["']application/ld+json["']`,
case-insensitively, as the JSON-LD script regex of the source requires? -/
def ldJsonAttr : List Char → Bool
  | [] => false
  | c :: rest =>
    (match stripCI "type".data (c :: rest) with
     | some a1 =>
       (match (a1.dropWhile isJsWs) with
        | '=' :: a2 =>
          (match a2.dropWhile isJsWs with
           | q :: a3 =>
             if q = '"' ∨ q = '\'' then
               (match stripCI "application/ld+json".data a3 with
                | some (q2 :: _) => (q2 = '"' ∨ q2 = '\'') ∨ ldJsonAttr rest
                | _ => ldJsonAttr rest)
             else ldJsonAttr rest
           | [] => ldJsonAttr rest)
        | _ => ldJsonAttr rest)
     | none => ldJsonAttr rest)

/-- Global scan for
`/<script[^>]*type\s*=\s*["']application\/ld\+json["'][^>]*>([\s\S]*?)<\/script>/gi`:
at each position try to match `<script`, check that the span up to the
first `>` carries the JSON-LD type attribute, and capture lazily up to the
first `</script>`; on failure advance one character, on success continue
after the closing tag. -/
def scriptBlocksF : Nat → List Char → List (List Char)
  | _, [] => []
  | 0, _ => []
  | fuel + 1, c :: rest =>
    match stripCI "<script".data (c :: rest) with
    | some afterOpen =>
      (match afterOpen.dropWhile (fun d => ¬(d = '>')) with
       | '>' :: content =>
         if ldJsonAttr (afterOpen.takeWhile (fun d => ¬(d = '>'))) then
           match splitAtCI "</script>".data content with
           | some (block, after) => block :: scriptBlocksF fuel after
           | none => scriptBlocksF fuel rest
         else scriptBlocksF fuel rest
       | _ => scriptBlocksF fuel rest)
    | none => scriptBlocksF fuel rest

def scriptBlocks (html : String) : List (List Char) :=
  scriptBlocksF html.data.length html.data

/-- `item['@type'] === 'Recipe' || (Array.isArray(item['@type']) &&
item['@type'].includes('Recipe'))`; property access on `null` throws. -/
def isRecipeTyped (item : JVal) : Except PErr Bool := do
  let t ← jgetE item "@type"
  match t with
  | some (.jstr s) => pure (s = "Recipe")
  | some (.jarr ts) =>
    pure (ts.any (fun v => match v with | .jstr s => s = "Recipe" | _ => false))
  | _ => pure false

/-- `array.find(item => isRecipeTyped(item))`; a throwing callback
propagates. -/
def findRecipe : List JVal → Except PErr (Option JVal)
  | [] => pure none
  | item :: rest => do
    if (← isRecipeTyped item) then pure (some item) else findRecipe rest

/-- The body of the per-block `try` in `extractJsonLd`, after `JSON.parse`
succeeded: check a `@graph` container, then a top-level array, then the
object itself. -/
def searchRecipe (data : JVal) : Except PErr (Option JVal) := do
  let graphStep : Option JVal ←
    match ← jgetE data "@graph" with
    | some (.jarr items) => findRecipe items
    | _ => pure none
  match graphStep with
  | some r => pure (some r)
  | none => do
    let arrStep : Option JVal ←
      match data with
      | .jarr items => findRecipe items
      | _ => pure none
    match arrStep with
    | some r => pure (some r)
    | none => do
      if (← isRecipeTyped data) then pure (some data) else pure none

/-- Process one JSON-LD block: trim, `JSON.parse`, search; any parse error
or thrown `TypeError` is swallowed by the `catch` and yields nothing. -/
def jsonLdScanBlock (block : List Char) : Option JVal :=
  match jparse ⟨trimL block⟩ with
  | none => none
  | some data =>
    match searchRecipe data with
    | .error _ => none
    | .ok r => r

/-- The block loop of `extractJsonLd`: first block that yields a
Recipe-typed record wins. -/
def jsonLdLoop : List (List Char) → Option JVal
  | [] => none
  | b :: bs =>
    match jsonLdScanBlock b with
    | some r => some r
    | none => jsonLdLoop bs

/-- `extractJsonLd(html)` from the source. -/
def extractJsonLd (html : String) : Option JVal :=
  jsonLdLoop (scriptBlocks html)

/-! ## Mapping a schema.org Recipe record to the canonical shape -/
/-- `parseInt(digits, 10)` on a non-empty digit run. -/
def parseIntDigits (ds : List Char) : Nat :=
  ds.foldl (fun n c => n * 10 + (c.toNat - 48)) 0

/-- The hour/minute components found by the first (and only relevant) match
of `/PT(?:(\d+)H)?(?:(\d+)M)?/i`: at the first case-insensitive `PT`, an
optional digit run followed by `H`, then an optional digit run followed by
`M`.  `none` when no `PT` occurs (the regex then fails to match). -/
def ptScan : List Char → Option (Nat × Nat)
  | [] => none
  | [_] => none
  | c1 :: c2 :: rest =>
    if charCI 'p' c1 ∧ charCI 't' c2 then
      let d1 := rest.takeWhile Char.isDigit
      let r1 := rest.dropWhile Char.isDigit
      let (hours, afterH) :=
        match d1, r1 with
        | _ :: _, h :: r2 => if charCI 'h' h then (parseIntDigits d1, r2) else (0, rest)
        | _, _ => (0, rest)
      let d2 := afterH.takeWhile Char.isDigit
      let r3 := afterH.dropWhile Char.isDigit
      let minutes :=
        match d2, r3 with
        | _ :: _, m :: _ => if charCI 'm' m then parseIntDigits d2 else 0
        | _, _ => 0
      some (hours, minutes)
    else ptScan (c2 :: rest)

/-- `parseDuration(iso)` from the source, for a string argument. -/
def parseDuration (iso : String) : Option String :=
  match ptScan iso.data with
  | none => none
  | some (h, m) =>
    let total := h * 60 + m
    if total > 0 then some (toString total ++ " min") else none

/-- `parseDuration` on a JavaScript value: non-strings and falsy values
yield null (the `typeof` guard). -/
def parseDurationJ : Option JVal → Option String
  | some (.jstr s) => if s = "" then none else parseDuration s
  | _ => none

/-- `String(x)` where `x` may be `undefined`. -/
def jvalStringU : Option JVal → String
  | none => "undefined"
  | some v => jvalString v

/-- `parseServings(recipeYield)` from the source: falsy yields null; an
array contributes its first element (`undefined` when empty, stringified
to `"undefined"`); the result is stringified, cleaned and nulled when
empty. -/
def parseServingsJ (ry : Option JVal) : Option String :=
  if ¬otruthy ry then none
  else
    let y : Option JVal :=
      match ry with
      | some (.jarr items) => items.head?
      | _ => ry
    nullify (cleanText (jvalStringU y))

/-- `extractDomain(url)` from the source.  Models the `new URL(url).hostname`
of the URL library for ordinary `scheme://[user@]host[:port]/...` URLs:
the authority's host, lowercased, with a leading `www.` stripped; URLs the
constructor would reject yield null (the function catches the throw). -/
def extractDomain (url : String) : Option String :=
  match splitAtCI "://".data url.data with
  | none => none
  | some (_, afterScheme) =>
    let authority := afterScheme.takeWhile (fun c => ¬(c = '/' ∨ c = '?' ∨ c = '#'))
    let hostPort :=
      if authority.contains '@' then
        (authority.reverse.takeWhile (fun c => ¬(c = '@'))).reverse
      else authority
    let host := (hostPort.takeWhile (fun c => ¬(c = ':'))).map Char.toLower
    if host.isEmpty then none
    else
      match stripCI "www.".data host with
      | some rest => some ⟨rest⟩
      | none => some ⟨host⟩

/-- `parseSchemaIngredients(recipeIngredient)` from the source: falsy gives
`[]`, a non-array is wrapped, each entry is stringified and cleaned, and
empty results are dropped. -/
def parseSchemaIngredients (ri : Option JVal) : List Ingredient :=
  if ¬otruthy ri then []
  else
    let arr : List JVal :=
      match ri with
      | some (.jarr items) => items
      | some v => [v]
      | none => []
    (arr.map (fun i => Ingredient.mk (cleanText (jvalString i)))).filter
      (fun i => ¬(i.rawIngredient = ""))

/-- One item of the instructions loop of `parseSchemaSteps`: a string is
cleaned; an object with a truthy `text` contributes its cleaned text (a
truthy non-string `text` throws); a `HowToSection`-typed object or any
object with an `itemListElement` array contributes its sub-items
(strings, or objects with truthy `text`). -/
def stepsOfSub : List JVal → Except PErr (List String)
  | [] => pure []
  | sub :: rest => do
    let hd : List String ←
      match sub with
      | .jstr s => pure [cleanText s]
      | _ => do
        let t ← jgetE sub "text"
        if otruthy t then do pure [← cleanTextF t] else pure []
    let tl ← stepsOfSub rest
    pure (hd ++ tl)

def stepsOfItem (item : JVal) : Except PErr (List String) :=
  match item with
  | .jstr s => pure [cleanText s]
  | _ => do
    let t ← jgetE item "text"
    if otruthy t then do pure [← cleanTextF t]
    else do
      let ty ← jgetE item "@type"
      let ile ← jgetE item "itemListElement"
      match ty, ile with
      | some (.jstr "HowToSection"), some (.jarr subs) => stepsOfSub subs
      | _, _ =>
        match ile with
        | some (.jarr subs) => stepsOfSub subs
        | _ => pure []

def stepsLoop : List JVal → Except PErr (List String)
  | [] => pure []
  | item :: rest => do
    let hd ← stepsOfItem item
    let tl ← stepsLoop rest
    pure (hd ++ tl)

/-- `parseSchemaSteps(instructions)` from the source. -/
def parseSchemaSteps (instructions : Option JVal) : Except PErr (List String) :=
  if ¬otruthy instructions then pure []
  else
    match instructions with
    | some (.jstr s) =>
      pure (((splitNlRuns s.data).map (fun p => cleanText ⟨p⟩)).filter
        (fun x => ¬(x = "")))
    | some v => do
      let items : List JVal :=
        match v with
        | .jarr its => its
        | w => [w]
      let steps ← stepsLoop items
      pure (steps.filter (fun x => ¬(x = "")))
    | none => pure []

/-- `parseSchemaRecipe(schema, sourceUrl)` from the source: `Except.ok none`
models the `return null` (record rejected for an empty name); a thrown
`TypeError` propagates to the URL pipeline. -/
def parseSchemaRecipe (schema : JVal) (sourceUrl : String) :
    Except PErr (Option Recipe) := do
  let name ← cleanTextF (← jgetE schema "name")
  if name = "" then pure none
  else do
    let ingredients := parseSchemaIngredients (← jgetE schema "recipeIngredient")
    let steps ← parseSchemaSteps (← jgetE schema "recipeInstructions")
    let note ← cleanTextF (← jgetE schema "description")
    let prepTime := parseDurationJ (← jgetE schema "prepTime")
    let cookTime := parseDurationJ (← jgetE schema "cookTime")
    let servings := parseServingsJ (← jgetE schema "recipeYield")
    pure (some
      { name := name
        ingredients := ingredients
        preparationSteps := steps
        note := nullify note
        sourceName := extractDomain sourceUrl
        sourceUrl := some sourceUrl
        prepTime := prepTime
        cookTime := cookTime
        servings := servings })

/-! ## The heuristic markup extractor -/
/-- First match of `/<tag[^>]*>([\s\S]*?)<\/tag>/i`: scan for `<tag`, take
the span up to the first `>`, then capture lazily up to `</tag>`.  On
failure at a position advance one character. -/
def tagInnerF (tag : List Char) : Nat → List Char → Option (List Char)
  | _, [] => none
  | 0, _ => none
  | fuel + 1, c :: rest =>
    match stripCI ('<' :: tag) (c :: rest) with
    | some afterOpen =>
      (match afterOpen.dropWhile (fun d => ¬(d = '>')) with
       | '>' :: content =>
         (match splitAtCI ('<' :: '/' :: tag ++ ['>']) content with
          | some (inner, _) => some inner
          | none => tagInnerF tag fuel rest)
       | _ => tagInnerF tag fuel rest)
    | none => tagInnerF tag fuel rest

def tagInner (tag : List Char) (html : List Char) : Option (List Char) :=
  tagInnerF tag html.length html

/-- The trailing site-name strip `.replace(/\s*[-|–—]\s*[^-|–—]+$/, '')` of
`extractTitle`: the leftmost match uses the last separator character
(hyphen, pipe, en dash, em dash) of the string, requires at least one
character after it, and extends left over whitespace; the match (that
whitespace, the separator and the whole tail) is removed. -/
def isSiteSep (c : Char) : Bool := c = '-' ∨ c = '|' ∨ c = '–' ∨ c = '—'

def stripSiteSuffix (s : String) : String :=
  let r := s.data.reverse
  let tail := r.takeWhile (fun c => ¬isSiteSep c)
  let rest := r.dropWhile (fun c => ¬isSiteSep c)
  match tail, rest with
  | _ :: _, _ :: afterSep =>
    -- a separator exists and at least one character follows it
    ⟨(afterSep.dropWhile isJsWs).reverse⟩
  | _, _ => s

/-- `extractTitle(html)` from the source: first `<h1>`'s cleaned text when
non-empty and under 200 characters, else the `<title>`'s cleaned text with
a trailing site-name suffix stripped, else null. -/
def extractTitle (html : String) : Option String :=
  let fromTitle : Option String :=
    match tagInner "title".data html.data with
    | some inner =>
      let text := jsTrim (stripSiteSuffix (cleanText (stripHtml ⟨inner⟩)))
      if ¬(text = "") then some text else none
    | none => none
  match tagInner "h1".data html.data with
  | some inner =>
    let text := cleanText (stripHtml ⟨inner⟩)
    if ¬(text = "") ∧ text.length < 200 then some text else fromTitle
  | none => fromTitle

/-- One class-name pattern
`/class\s*=\s*["'][^"']*(?:tok1|tok2|...)[^"']*["'][^>]*>([\s\S]*?)<\/(?:li|div|span|p)/gi`:
at each position try `class`, optional whitespace, `=`, optional
whitespace, a quote, a quote-free span that must contain one of the
tokens, a closing quote, the span up to the first `>`, then a lazy capture
up to the first `</li`, `</div`, `</span` or `</p`.  Returns the raw
captured fragments in match order. -/
def isQuote (c : Char) : Bool := c = '"' ∨ c = '\''

/-- Earliest position at which one of the closing-tag alternatives starts;
returns the capture before it and the input after the matched alternative
(the regex has no closing `>`, so scanning resumes right after the tag
name). -/
def splitAtCloser : List Char → Option (List Char × List Char)
  | [] => none
  | c :: rest =>
    match stripCI "</li".data (c :: rest) with
    | some after => some ([], after)
    | none =>
      match stripCI "</div".data (c :: rest) with
      | some after => some ([], after)
      | none =>
        match stripCI "</span".data (c :: rest) with
        | some after => some ([], after)
        | none =>
          match stripCI "</p".data (c :: rest) with
          | some after => some ([], after)
          | none =>
            match splitAtCloser rest with
            | some (pre, after) => some (c :: pre, after)
            | none => none

def classScanF (tokens : List (List Char)) : Nat → List Char → List (List Char)
  | _, [] => []
  | 0, _ => []
  | fuel + 1, c :: rest =>
    match stripCI "class".data (c :: rest) with
    | some a1 =>
      (match (a1.dropWhile isJsWs) with
       | '=' :: a2 =>
         (match a2.dropWhile isJsWs with
          | q :: a3 =>
            if isQuote q then
              let val := a3.takeWhile (fun d => ¬isQuote d)
              (match a3.dropWhile (fun d => ¬isQuote d) with
               | _ :: a4 =>
                 -- the character after the value span is a quote of either kind
                 if tokens.any (fun t => containsCI t val) then
                   match a4.dropWhile (fun d => ¬(d = '>')) with
                   | '>' :: content =>
                     (match splitAtCloser content with
                      | some (captured, after) =>
                        captured :: classScanF tokens fuel after
                      | none => classScanF tokens fuel rest)
                   | _ => classScanF tokens fuel rest
                 else classScanF tokens fuel rest
               | [] => classScanF tokens fuel rest)
            else classScanF tokens fuel rest
          | [] => classScanF tokens fuel rest)
       | _ => classScanF tokens fuel rest)
    | none => classScanF tokens fuel rest

def classScan (tokens : List (List Char)) (html : String) : List (List Char) :=
  classScanF tokens html.data.length html.data

/-- `extractIngredients(html)` from the source: two patterns in priority
order; each matched fragment is tag-stripped and cleaned and kept when
longer than 2 and shorter than 200 characters; the first pattern with at
least one surviving fragment wins. -/
def ingredientTokens1 : List (List Char) :=
  ["recipe-ingredient".data, "wprm-recipe-ingredient".data, "ingredient-item".data]

def ingredientTokens2 : List (List Char) := ["ingredient".data]

def heurIngFilter (texts : List String) : List String :=
  texts.filter (fun t => ¬(t = "") ∧ t.length > 2 ∧ t.length < 200)

def extractIngredients (html : String) : List String :=
  let p1 := heurIngFilter ((classScan ingredientTokens1 html).map
    (fun cap => cleanText (stripHtml ⟨cap⟩)))
  if ¬p1.isEmpty then p1
  else
    heurIngFilter ((classScan ingredientTokens2 html).map
      (fun cap => cleanText (stripHtml ⟨cap⟩)))

/-- `extractSteps(html)` from the source: analogous, fragments kept when
longer than 10 characters. -/
def stepTokens1 : List (List Char) :=
  ["recipe-step".data, "wprm-recipe-instruction".data, "instruction-text".data,
   "direction-text".data]

def stepTokens2 : List (List Char) :=
  ["instruction".data, "direction".data, "step".data]

def heurStepFilter (texts : List String) : List String :=
  texts.filter (fun t => ¬(t = "") ∧ t.length > 10)

def extractSteps (html : String) : List String :=
  let p1 := heurStepFilter ((classScan stepTokens1 html).map
    (fun cap => cleanText (stripHtml ⟨cap⟩)))
  if ¬p1.isEmpty then p1
  else
    heurStepFilter ((classScan stepTokens2 html).map
      (fun cap => cleanText (stripHtml ⟨cap⟩)))

/-- `parseHeuristicHtml(html, sourceUrl)` from the source: best-effort
record with a placeholder name. -/
def parseHeuristicHtml (html : String) (sourceUrl : String) : Recipe :=
  let name :=
    match extractTitle html with
    | some t => if t = "" then "Untitled Recipe" else t
    | none => "Untitled Recipe"
  { name := name
    ingredients := (extractIngredients html).map Ingredient.mk
    preparationSteps := extractSteps html
    note := none
    sourceName := extractDomain sourceUrl
    sourceUrl := some sourceUrl
    prepTime := none
    cookTime := none
    servings := none }

/-! ## The text segmenter -/
/-- Does a trimmed line match `/^(ingredients|ingredient list)\s*:?\s*$/i`? -/
def headerRest (r : List Char) : Bool :=
  let r1 := r.dropWhile isJsWs
  let r2 := match r1 with | ':' :: t => t | _ => r1
  (r2.dropWhile isJsWs).isEmpty

def matchesHeader (keys : List (List Char)) (l : List Char) : Bool :=
  keys.any (fun k =>
    match stripCI k l with
    | some rest => headerRest rest
    | none => false)

def isIngHeader (l : List Char) : Bool :=
  matchesHeader ["ingredients".data, "ingredient list".data] l

def isStepHeader (l : List Char) : Bool :=
  matchesHeader
    ["instructions".data, "directions".data, "steps".data, "method".data,
     "preparation".data] l

/-- Test `/^\d+[\.\)]\s/`: digits, a dot or closing parenthesis, then one
whitespace character. -/
def isNumberedStep (l : List Char) : Bool :=
  match l.takeWhile Char.isDigit, l.dropWhile Char.isDigit with
  | _ :: _, p :: w :: _ => (p = '.' ∨ p = ')') ∧ isJsWs w
  | _, _ => false

/-- Strip `/^[-•*]\s*/`. -/
def stripBullet (l : List Char) : List Char :=
  match l with
  | c :: rest => if c = '-' ∨ c = '•' ∨ c = '*' then rest.dropWhile isJsWs else l
  | [] => l

/-- Strip `/^\d+[\.\)]\s*/`. -/
def stripNum (l : List Char) : List Char :=
  match l.takeWhile Char.isDigit, l.dropWhile Char.isDigit with
  | _ :: _, p :: rest => if p = '.' ∨ p = ')' then rest.dropWhile isJsWs else l
  | _, _ => l

/-- `lines.slice(a, b)` (here always with `a ≤ b`). -/
def sliceList {α : Type} (l : List α) (a b : Nat) : List α :=
  (l.drop a).take (b - a)

/-- `array.findIndex(p)`, as an optional index. -/
def jsFindIndex (p : List Char → Bool) : List (List Char) → Option Nat
  | [] => none
  | a :: rest => if p a then some 0 else (jsFindIndex p rest).map (· + 1)

/-- `text.split(/\n/).map(l => l.trim()).filter(Boolean)` — the trimmed
non-empty lines the Text Segmenter works on. -/
def linesOfText (text : String) : List (List Char) :=
  ((splitNl text.data).map trimL).filter (fun l => ¬l.isEmpty)

/-- The header-based segmentation step of `normalizeFromText`: from the
trimmed non-empty lines (with first line `l0`) compute the name line, the
ingredient lines and the step lines. -/
def segmentLines (lines : List (List Char)) (l0 : List Char) :
    List Char × List (List Char) × List (List Char) :=
  let iIdx? := jsFindIndex isIngHeader lines
  let sIdx? := jsFindIndex isStepHeader lines
  if iIdx?.isSome ∨ sIdx?.isSome then
        let firstHeader :=
          match iIdx?, sIdx? with
          | some i, some s => min i s
          | some i, none => i
          | none, some s => s
          | none, none => 0
        let nameL := if firstHeader > 0 then l0 else "Untitled Recipe".data
        let ingredientLines :=
          match iIdx? with
          | some i =>
            let e :=
              match sIdx? with
              | some s => if s > i then s else lines.length
              | none => lines.length
            sliceList lines (i + 1) e
          | none => []
        let stepLines :=
          match sIdx? with
          | some s =>
            let e :=
              match iIdx? with
              | some i => if i > s then i else lines.length
              | none => lines.length
            sliceList lines (s + 1) e
          | none => []
        (nameL, ingredientLines, stepLines)
      else
        let remaining := lines.drop 1
        match jsFindIndex isNumberedStep remaining with
        | some k => (l0, remaining.take k, remaining.drop k)
        | none => (l0, remaining, [])

/-- `normalizeFromText(text)` from the source. -/
def normalizeFromText (text : String) : Except PErr Recipe :=
  let lines := linesOfText text
  match lines with
  | [] => .error .emptyInput
  | l0 :: _ =>
    let seg := segmentLines lines l0
    let ingredients :=
      (((seg.2.1.map (fun l => trimL (stripBullet l))).filter
        (fun l => l.length > 1)).map (fun l => Ingredient.mk ⟨l⟩))
    let preparationSteps :=
      ((seg.2.2.map (fun l => trimL (stripNum l))).filter
        (fun l => l.length > 5)).map (fun l => (⟨l⟩ : String))
    .ok
      { name := ⟨seg.1⟩
        ingredients := ingredients
        preparationSteps := preparationSteps
        note := none
        sourceName := none
        sourceUrl := none
        prepTime := none
        cookTime := none
        servings := none }

/-! ## The object normalizer -/
/-- One entry of the `ingredients` array in `normalizeFromObject`: a bare
string is cleaned; an object with truthy `rawIngredient` uses its cleaned
value (throwing on a truthy non-string); otherwise the truthy members of
`[quantity, name, note]` are stringified, space-joined and cleaned. -/
def objIngredient (i : JVal) : Except PErr Ingredient :=
  match i with
  | .jstr s => pure (Ingredient.mk (cleanText s))
  | _ => do
    let raw ← jgetE i "rawIngredient"
    if otruthy raw then do
      pure (Ingredient.mk (← cleanTextF raw))
    else do
      let q ← jgetE i "quantity"
      let n ← jgetE i "name"
      let t ← jgetE i "note"
      let parts := ([q, n, t].filter otruthy).map jvalStringU
      pure (Ingredient.mk (cleanText (String.intercalate " " parts)))

def objIngredients : List JVal → Except PErr (List Ingredient)
  | [] => pure []
  | i :: rest => do
    let hd ← objIngredient i
    let tl ← objIngredients rest
    pure (hd :: tl)

/-- `Array.isArray(recipe.ingredients)` gate and per-entry mapping of the
`ingredients` field, with empty cleaned entries dropped. -/
def objIngredientsOf (ingF : Option JVal) : Except PErr (List Ingredient) :=
  match ingF with
  | some (.jarr items) => do
    pure ((← objIngredients items).filter (fun i => ¬(i.rawIngredient = "")))
  | _ => pure []

/-- The `recipe.sourceUrl || recipe.url || null` output field: the selected
truthy value verbatim — no cleaning (a truthy non-string value is
represented by its string conversion); falsy gives null. -/
def sourceUrlOf (su : Option JVal) : Option String :=
  if otruthy su then
    match su with
    | some (.jstr s) => some s
    | some v => some (jvalString v)
    | none => none
  else none

/-- `normalizeFromObject(recipe)` from the source.  Note which fields are
cleaned and which are not: `sourceUrl` is taken verbatim from
`sourceUrl || url || null`. -/
def normalizeFromObject (recipe : JVal) : Except PErr Recipe := do
  let name0 ← cleanTextF (← jgetE recipe "name")
  let name := if name0 = "" then "Untitled Recipe" else name0
  let ingredients ← objIngredientsOf (← jgetE recipe "ingredients")
  let psF ← jgetE recipe "preparationSteps"
  let stF ← jgetE recipe "steps"
  let inF ← jgetE recipe "instructions"
  let preparationSteps :=
    match jsor (jsor psF stF) inF with
    | some (.jarr items) =>
      (items.map (fun s => cleanText (jvalString s))).filter (fun x => ¬(x = ""))
    | _ => []
  let note ← cleanTextF (jsor (← jgetE recipe "note") (← jgetE recipe "description"))
  let sourceName ←
    cleanTextF (jsor (← jgetE recipe "sourceName") (← jgetE recipe "source"))
  let sourceUrl := sourceUrlOf (jsor (← jgetE recipe "sourceUrl") (← jgetE recipe "url"))
  let ptF ← jgetE recipe "prepTime"
  let prepTime := nullify (cleanText (jvalStringU (jsor ptF (some (.jstr "")))))
  let ctF ← jgetE recipe "cookTime"
  let cookTime := nullify (cleanText (jvalStringU (jsor ctF (some (.jstr "")))))
  let svF ← jgetE recipe "servings"
  let servings := nullify (cleanText (jvalStringU (jsor svF (some (.jstr "")))))
  pure
    { name := name
      ingredients := ingredients
      preparationSteps := preparationSteps
      note := nullify note
      sourceName := nullify sourceName
      sourceUrl := sourceUrl
      prepTime := prepTime
      cookTime := cookTime
      servings := servings }

/-- A possibly-absent string field embedded as a JavaScript value (an
absent optional field of a record is `null`). -/
def optJ : Option String → JVal
  | some s => .jstr s
  | none => .jnull

/-- JavaScript truthiness of a possibly-absent string. -/
def truthyS : Option String → Bool
  | some s => ¬(s = "")
  | none => false

/-- Embed a canonical record back into a JavaScript object, exactly as the
record's JSON shape presents it to a second `normalizeFromObject` call
(absent optional fields are `null`, as in the produced record). -/
def recordToJVal (r : Recipe) : JVal :=
  .jobj
    [("name", .jstr r.name),
     ("ingredients",
      .jarr (r.ingredients.map (fun i => .jobj [("rawIngredient", .jstr i.rawIngredient)]))),
     ("preparationSteps", .jarr (r.preparationSteps.map .jstr)),
     ("note", optJ r.note),
     ("sourceName", optJ r.sourceName),
     ("sourceUrl", optJ r.sourceUrl),
     ("prepTime", optJ r.prepTime),
     ("cookTime", optJ r.cookTime),
     ("servings", optJ r.servings)]

/-! ## The URL pipeline (after the fetch) and the page fetcher -/
/-- The decision logic of `normalizeFromUrl(url)` applied to the fetched
markup: JSON-LD first (a record rejected for an empty name falls through),
then the heuristic fallback, accepted only when the record's name is
truthy and an ingredient or a step was recovered; otherwise an
`ExtractionError`. -/
def normalizeHtml (html : String) (url : String) : Except PErr Recipe :=
  let heuristicStage : Except PErr Recipe :=
    let h := parseHeuristicHtml html url
    if ¬(h.name = "") ∧ (¬h.ingredients.isEmpty ∨ ¬h.preparationSteps.isEmpty) then
      .ok h
    else .error (.extractionError url)
  match extractJsonLd html with
  | some v =>
    (match parseSchemaRecipe v url with
     | .error e => .error e
     | .ok (some r) => .ok r
     | .ok none => heuristicStage)
  | none => heuristicStage

/-- A single response-handler step of `fetchHtml`: a 3xx status with a
truthy `Location` header triggers a re-fetch of the URL resolved from that
header (carried by `redirect`; the URL-library resolution itself is outside
the model); any other status except exactly 200 rejects with the
`HTTP <status>` fetch error; a 200 resolves with the body text. -/
inductive FetchOutcome where
  | redirect (location : String)
  | success (body : String)
  | failure (status : Nat)
deriving DecidableEq, Repr

def locTruthy : Option String → Bool
  | none => false
  | some l => ¬(l = "")

def fetchStep (statusCode : Nat) (location : Option String) (body : String) :
    FetchOutcome :=
  if 300 ≤ statusCode ∧ statusCode < 400 ∧ locTruthy location then
    .redirect (match location with | some l => l | none => "")
  else if ¬(statusCode = 200) then .failure statusCode
  else .success body

/-! ## The dispatcher -/
/-- The input descriptor `{ url?, text?, recipe? }` of `normalizeRecipe`,
with JavaScript values as members (so that an empty string can be a
syntactically present member). -/
structure InputDesc where
  url : Option JVal
  text : Option JVal
  recipe : Option JVal

/-- Which pipeline the dispatcher hands the input to. -/
inductive Route where
  | invalidInput
  | toUrl (v : JVal)
  | toText (v : JVal)
  | toObject (v : JVal)

/-- The routing of `normalizeRecipe(input)` (lines 9–23): throw when the
input is missing or all three members are falsy, else dispatch by priority
url, text, recipe.  (The final implicit-undefined fall-through of the
source is unreachable and modelled by `invalidInput`.) -/
def normalizeRecipeRoute (input : Option InputDesc) : Route :=
  match input with
  | none => .invalidInput
  | some i =>
    if ¬otruthy i.url ∧ ¬otruthy i.text ∧ ¬otruthy i.recipe then .invalidInput
    else if otruthy i.url then .toUrl (match i.url with | some v => v | none => .jnull)
    else if otruthy i.text then .toText (match i.text with | some v => v | none => .jnull)
    else if otruthy i.recipe then .toObject (match i.recipe with | some v => v | none => .jnull)
    else .invalidInput

/-! ## C10: the dispatcher treats empty strings as absent members -/
/-- A descriptor member that is syntactically missing or the empty
string. -/
def emptyish (x : Option JVal) : Prop := x = none ∨ x = some (.jstr "")

/-! ## C6: malformed JSON-LD blocks are skipped -/
/-- The concrete markup of the claim: two JSON-LD blocks, the first of
which is not valid JSON, the second a Recipe-typed object. -/
def c6Html : String :=
  "<script type=\"application/ld+json\">\x7bnot json</script><script type=\"application/ld+json\">\x7b\"@type\":\"Recipe\",\"name\":\"Pie\"\x7d</script>"

/-- The string that `a || b` feeds to `cleanText`/`String(...)` when `a`
and `b` are possibly-absent strings: the first truthy one, or `""`. -/
def jsSel (a b : Option String) : String := (if truthyS a then a else b).getD ""

/-- The verbatim `a || b || null` selection on possibly-absent strings. -/
def jsSelOpt (a b : Option String) : Option String :=
  if truthyS a then a else if truthyS b then b else none

/-- The scalar-field object of the claim: the six output scalars and their
alternate names, as string-or-absent members. -/
def mkScalarObj (note desc sn src su url pt ct sv : Option String) : JVal :=
  .jobj [("note", optJ note), ("description", optJ desc),
         ("sourceName", optJ sn), ("source", optJ src),
         ("sourceUrl", optJ su), ("url", optJ url),
         ("prepTime", optJ pt), ("cookTime", optJ ct), ("servings", optJ sv)]

/-! ### C3 amended: idempotence on already-clean records -/
/-- A string that one more `cleanText` pass leaves unchanged, and that is
non-empty (so JavaScript treats it as truthy). -/
def cleanFixed (s : String) : Prop := ¬(s = "") ∧ cleanText s = s

def optCleanFixed : Option String → Prop
  | none => True
  | some s => cleanFixed s

/-! ## C2: the URL pipeline's heuristic fallback and ExtractionError -/
/-- The page yields no usable structured-data record: either no JSON-LD
Recipe is found at all, or the found one is rejected (empty name) by the
schema mapper. -/
def noUsableStructured (html url : String) : Prop :=
  match extractJsonLd html with
  | none => True
  | some v => parseSchemaRecipe v url = .ok none

/-- The acceptance test of the URL pipeline on the heuristic record: a
truthy name and at least one recovered ingredient or step. -/
def heuristicUsable (html url : String) : Prop :=
  ¬((parseHeuristicHtml html url).name = "") ∧
    (¬(parseHeuristicHtml html url).ingredients.isEmpty = true ∨
     ¬(parseHeuristicHtml html url).preparationSteps.isEmpty = true)

instance (html url : String) : Decidable (heuristicUsable html url) := by
  unfold heuristicUsable
  infer_instance

/-! ## Helper lemmas for the cleanliness and non-blankness invariants -/
/-- A string to which the shared cleaning utility has been applied (it is
the utility's output on some input). -/
def cleanedStr (x : String) : Prop := ∃ u, x = cleanText u

/-- The record invariant of claim C9: a non-empty name and no empty or
whitespace-only ingredient or step entries. -/
def recipeInv (r : Recipe) : Prop :=
  (¬(r.name = "") ∧ r.name.data.all isJsWs = false) ∧
  (∀ i ∈ r.ingredients, ¬(i.rawIngredient = "") ∧
    i.rawIngredient.data.all isJsWs = false) ∧
  (∀ s ∈ r.preparationSteps, ¬(s = "") ∧ s.data.all isJsWs = false)

@[simp] theorem except_bind_ok {α β : Type} (a : α) (f : α → Except PErr β) :
    (Except.ok a >>= f) = f a := rfl

@[simp] theorem except_bind_err {α β : Type} (e : PErr) (f : α → Except PErr β) :
    ((Except.error e : Except PErr α) >>= f) = .error e := rfl

/-! # Claims -/
/-! ## C4: the page fetcher's status handling -/
/-- Claim C4 counterexample: a terminal `204 No Content` response is 2xx,
yet the fetcher rejects it with the HTTP-status fetch error instead of
yielding the body — the source accepts exactly status 200, not all of
2xx. -/
theorem c4_counterexample :
    (200 ≤ 204 ∧ 204 < 300) ∧
      fetchStep 204 none "the body" = .failure 204 ∧
      ¬(fetchStep 204 none "the body" = .success "the body") := by
  refine ⟨by omega, by decide, by decide⟩

/-- Claim C4 (amended): for every terminal response (not a 3xx with a
non-empty Location header) the fetcher fails with the status-carrying
fetch error exactly when the status differs from 200, and yields the body
exactly on status 200; every 3xx response with a non-empty Location header
is not a failure but a re-fetch of the URL resolved from that header. -/
theorem c4_fetch_status (s : Nat) (loc : Option String) (body : String) :
    (¬(300 ≤ s ∧ s < 400 ∧ locTruthy loc = true) →
      ((fetchStep s loc body = .failure s ↔ ¬(s = 200)) ∧
       (fetchStep s loc body = .success body ↔ s = 200))) ∧
    (∀ l : String, 300 ≤ s → s < 400 → ¬(l = "") →
      fetchStep s (some l) body = .redirect l) := by
  constructor
  · intro hterm
    unfold fetchStep
    rw [if_neg hterm]
    by_cases h200 : s = 200
    · subst h200
      simp
    · rw [if_pos h200]
      constructor
      · constructor
        · intro _; exact h200
        · intro _; rfl
      · constructor
        · intro hk; cases hk
        · intro hk; exact absurd hk h200
  · intro l h3 h4 hl
    unfold fetchStep
    rw [if_pos ⟨h3, h4, by simp [locTruthy, hl]⟩]

/-- Witness for `c4_fetch_status`: a terminal 404 fails with its status,
a terminal 200 yields the body, and a 301 with a Location header
redirects. -/
theorem c4_fetch_status_witness :
    fetchStep 404 none "" = .failure 404 ∧
    fetchStep 200 none "page" = .success "page" ∧
    fetchStep 301 (some "https://y.test/") "" = .redirect "https://y.test/" := by
  refine ⟨?_, ?_, ?_⟩
  · exact ((c4_fetch_status 404 none "").1 (by rintro ⟨h1, h2, h3⟩; omega)).1.mpr (by decide)
  · exact ((c4_fetch_status 200 none "page").1 (by rintro ⟨h1, h2, h3⟩; omega)).2.mpr rfl
  · exact (c4_fetch_status 301 (some "https://y.test/") "").2 "https://y.test/"
      (by omega) (by omega) (by decide)

/-- Claim C10: a descriptor whose `url`, `text` and `recipe` members are
each missing or the empty string fails with the invalid-input error, and a
descriptor with `url = ""` and a non-empty `text` is routed to the text
pipeline, whatever its `recipe` member. -/
theorem c10_dispatcher_empty_members :
    (∀ u t r : Option JVal, emptyish u → emptyish t → emptyish r →
      normalizeRecipeRoute (some ⟨u, t, r⟩) = .invalidInput) ∧
    (∀ (t : String) (r : Option JVal), ¬(t = "") →
      normalizeRecipeRoute (some ⟨some (.jstr ""), some (.jstr t), r⟩) =
        .toText (.jstr t)) := by
  constructor
  · intro u t r hu ht hr
    have falsy : ∀ x : Option JVal, emptyish x → otruthy x = false := by
      intro x hx
      rcases hx with h | h <;> subst h <;> simp [otruthy, truthyJ]
    simp only [normalizeRecipeRoute]
    rw [if_pos ⟨by simp [falsy u hu], by simp [falsy t ht], by simp [falsy r hr]⟩]
  · intro t r ht
    have hurl : otruthy (some (JVal.jstr "")) = false := by simp [otruthy, truthyJ]
    have htext : otruthy (some (JVal.jstr t)) = true := by simp [otruthy, truthyJ, ht]
    simp only [normalizeRecipeRoute]
    rw [if_neg (by simp [hurl, htext]), if_neg (by simp [hurl]), if_pos (by simp [htext])]

/-- Witness for `c10_dispatcher_empty_members` at concrete descriptors. -/
theorem c10_dispatcher_empty_members_witness :
    normalizeRecipeRoute (some ⟨some (.jstr ""), none, some (.jstr "")⟩) =
      .invalidInput ∧
    normalizeRecipeRoute
        (some ⟨some (.jstr ""), some (.jstr "Tacos\nIngredients"), none⟩) =
      .toText (.jstr "Tacos\nIngredients") := by
  constructor
  · exact c10_dispatcher_empty_members.1 (some (.jstr "")) none (some (.jstr ""))
      (Or.inr rfl) (Or.inl rfl) (Or.inr rfl)
  · exact c10_dispatcher_empty_members.2 "Tacos\nIngredients" none (by decide)

set_option maxRecDepth 40000 in
/-- Claim C6: a structured-data block whose content fails to parse as JSON
is skipped without surfacing an error and scanning continues with the
later blocks; on the concrete markup with an invalid first block and a
valid Recipe-typed second block, extraction succeeds with the second
block's record. -/
theorem c6_invalid_block_skipped :
    (∀ (b : List Char) (bs : List (List Char)), jparse ⟨trimL b⟩ = none →
      jsonLdLoop (b :: bs) = jsonLdLoop bs) ∧
    scriptBlocks c6Html =
      ["\x7bnot json".data, "\x7b\"@type\":\"Recipe\",\"name\":\"Pie\"\x7d".data] ∧
    jparse "\x7bnot json" = none ∧
    extractJsonLd c6Html =
      some (.jobj [("@type", .jstr "Recipe"), ("name", .jstr "Pie")]) := by
  refine ⟨?_, rfl, rfl, rfl⟩
  intro b bs hb
  have h1 : jsonLdScanBlock b = none := by
    unfold jsonLdScanBlock
    rw [hb]
  show (match jsonLdScanBlock b with
        | some r => some r
        | none => jsonLdLoop bs) = jsonLdLoop bs
  rw [h1]

/-- Witness for `c6_invalid_block_skipped`: skipping a concrete invalid
block. -/
theorem c6_invalid_block_skipped_witness :
    jparse ⟨trimL "\x7boops".data⟩ = none ∧
      jsonLdLoop ["\x7boops".data] = jsonLdLoop [] := by
  refine ⟨rfl, ?_⟩
  exact c6_invalid_block_skipped.1 "\x7boops".data [] rfl

/-! ## C7: the ISO-duration mapping -/
theorem takeWhile_all_append (p : Char → Bool) (l r : List Char)
    (h : l.all p = true) (c : Char) (hc : p c = false) :
    (l ++ c :: r).takeWhile p = l := by
  induction l with
  | nil => simp [List.takeWhile_cons, hc]
  | cons a t ih =>
    simp only [List.all_cons, Bool.and_eq_true] at h
    simp [List.takeWhile_cons, h.1, ih h.2]

theorem dropWhile_all_append (p : Char → Bool) (l r : List Char)
    (h : l.all p = true) (c : Char) (hc : p c = false) :
    (l ++ c :: r).dropWhile p = c :: r := by
  induction l with
  | nil => simp [List.dropWhile_cons, hc]
  | cons a t ih =>
    simp only [List.all_cons, Bool.and_eq_true] at h
    simp [List.dropWhile_cons, h.1, ih h.2]

/-- Claim C7: the duration mapping parses the optional hour and minute
components of a `PT#H#M` shorthand, sums them to total minutes and yields
`"<N> min"` when the total is positive; `PT0H0M` and an absent duration
map to null. -/
theorem c7_duration (hs ms : List Char)
    (hne : ¬(hs = [])) (hdig : hs.all Char.isDigit = true)
    (mne : ¬(ms = [])) (mdig : ms.all Char.isDigit = true) :
    (parseDuration ⟨'P' :: 'T' :: (hs ++ 'H' :: (ms ++ ['M']))⟩ =
      (if parseIntDigits hs * 60 + parseIntDigits ms > 0 then
        some (toString (parseIntDigits hs * 60 + parseIntDigits ms) ++ " min")
       else none)) ∧
    parseDuration "PT0H0M" = none ∧
    parseDurationJ none = none := by
  refine ⟨?_, by decide, rfl⟩
  unfold parseDuration
  have hscan : ptScan ('P' :: 'T' :: (hs ++ 'H' :: (ms ++ ['M']))) =
      some (parseIntDigits hs, parseIntDigits ms) := by
    unfold ptScan
    rw [if_pos (by constructor <;> decide)]
    rw [takeWhile_all_append Char.isDigit hs (ms ++ ['M']) hdig 'H' (by decide)]
    rw [dropWhile_all_append Char.isDigit hs (ms ++ ['M']) hdig 'H' (by decide)]
    rcases hs with _ | ⟨h0, ht⟩
    · exact absurd rfl hne
    simp only []
    rw [if_pos (by decide)]
    rw [takeWhile_all_append Char.isDigit ms [] mdig 'M' (by decide)]
    rw [dropWhile_all_append Char.isDigit ms [] mdig 'M' (by decide)]
    rcases ms with _ | ⟨m0, mt⟩
    · exact absurd rfl mne
    simp only []
    rw [if_pos (by decide)]
  rw [hscan]

/-- Witness for `c7_duration`: `PT1H30M` maps to `"90 min"`. -/
theorem c7_duration_witness :
    parseDuration "PT1H30M" = some "90 min" := by
  have h := (c7_duration ['1'] ['3', '0'] (by decide) (by decide) (by decide)
    (by decide)).1
  have heq : ("PT1H30M" : String) = ⟨'P' :: 'T' :: (['1'] ++ 'H' :: (['3', '0'] ++ ['M']))⟩ := rfl
  rw [heq, h]
  decide

/-! ## Helper lemmas about cleaned and trimmed strings -/
theorem dropWhile_head_false (p : Char → Bool) (l : List Char) (c : Char)
    (t : List Char) (h : l.dropWhile p = c :: t) : p c = false := by
  induction l with
  | nil => cases h
  | cons a r ih =>
    by_cases hp : p a
    · rw [List.dropWhile_cons, if_pos hp] at h
      exact ih h
    · rw [List.dropWhile_cons, if_neg hp] at h
      cases h
      exact Bool.of_not_eq_true hp

/-- A non-empty trimmed character list contains a non-whitespace
character. -/
theorem trimL_not_all_ws (l : List Char) (h : ¬(trimL l = [])) :
    (trimL l).all isJsWs = false := by
  unfold trimL at h ⊢
  set z := (l.dropWhile isJsWs).reverse.dropWhile isJsWs with hz
  rcases hc : z with _ | ⟨c, t⟩
  · rw [hc] at h
    simp at h
  · have hcf : isJsWs c = false :=
      dropWhile_head_false isJsWs (l.dropWhile isJsWs).reverse c t hc
    rw [Bool.eq_false_iff]
    intro hall
    rw [List.all_eq_true] at hall
    have hcw := hall c (by simp)
    rw [hcf] at hcw
    cases hcw

@[simp] theorem string_mk_data (l : List Char) : (String.mk l).data = l := rfl

theorem cleanText_unfold (s : String) : cleanText s = ⟨cleanTextL s.data⟩ := rfl

theorem cleanText_data (s : String) : (cleanText s).data = cleanTextL s.data := by
  rw [cleanText_unfold, string_mk_data]

/-- A non-empty `cleanText` result is never whitespace-only. -/
theorem cleanText_not_blank (u : String) (h : ¬(cleanText u = "")) :
    (cleanText u).data.all isJsWs = false := by
  rw [cleanText_data]
  have hne : ¬(cleanTextL u.data = []) := by
    intro k
    apply h
    rw [cleanText_unfold, k]
  unfold cleanTextL at hne ⊢
  exact trimL_not_all_ws _ hne

/-! ## C1: which pipelines apply the shared cleaning utility -/
/-- Claim C1 counterexample: the Text Segmenter does not apply the shared
cleaning utility — the returned name keeps the HTML entity `&amp;`, which
`cleanText` would have decoded. -/
theorem c1_counterexample :
    normalizeFromText "A &amp; B\nsecond line x" =
      .ok
        { name := "A &amp; B"
          ingredients := [⟨"second line x"⟩]
          preparationSteps := []
          note := none
          sourceName := none
          sourceUrl := none
          prepTime := none
          cookTime := none
          servings := none } ∧
    ¬(cleanText "A &amp; B" = "A &amp; B") := by
  constructor
  · decide
  · decide

/-! ## C3: idempotence of the object normalizer -/
/-- Claim C3 counterexample: `cleanText` is not idempotent (a
double-encoded `&amp;amp;` decodes one layer per pass), so re-normalizing
a previously normalized record changes it. -/
theorem c3_counterexample :
    normalizeFromObject (.jobj [("name", .jstr "A &amp;amp; B")]) =
      .ok
        { name := "A &amp; B"
          ingredients := []
          preparationSteps := []
          note := none
          sourceName := none
          sourceUrl := none
          prepTime := none
          cookTime := none
          servings := none } ∧
    normalizeFromObject (recordToJVal
        { name := "A &amp; B"
          ingredients := []
          preparationSteps := []
          note := none
          sourceName := none
          sourceUrl := none
          prepTime := none
          cookTime := none
          servings := none }) =
      .ok
        { name := "A & B"
          ingredients := []
          preparationSteps := []
          note := none
          sourceName := none
          sourceUrl := none
          prepTime := none
          cookTime := none
          servings := none } ∧
    ¬(({ name := "A & B"
         ingredients := []
         preparationSteps := []
         note := none
         sourceName := none
         sourceUrl := none
         prepTime := none
         cookTime := none
         servings := none } : Recipe) =
       { name := "A &amp; B"
         ingredients := []
         preparationSteps := []
         note := none
         sourceName := none
         sourceUrl := none
         prepTime := none
         cookTime := none
         servings := none }) := by
  refine ⟨by decide, by decide, by decide⟩

/-! ## C8: the object normalizer's scalar fields -/
/-- Claim C8 counterexample: `sourceUrl` is passed through verbatim, not
cleaned — whitespace that `cleanText` would trim survives in the
output. -/
theorem c8_counterexample :
    normalizeFromObject (.jobj [("sourceUrl", .jstr " https://x.test ")]) =
      .ok
        { name := "Untitled Recipe"
          ingredients := []
          preparationSteps := []
          note := none
          sourceName := none
          sourceUrl := some " https://x.test "
          prepTime := none
          cookTime := none
          servings := none } ∧
    ¬(cleanText " https://x.test " = " https://x.test ") := by
  refine ⟨by decide, by decide⟩

theorem otruthy_optJ (a : Option String) : otruthy (some (optJ a)) = truthyS a := by
  cases a <;> simp [optJ, otruthy, truthyJ, truthyS]

theorem cleanTextF_optJ (x : Option String) :
    cleanTextF (some (optJ x)) = .ok (cleanText (x.getD "")) := by
  cases x with
  | none =>
    show Except.ok "" = Except.ok (cleanText "")
    rw [show cleanText "" = "" from rfl]
  | some s => rfl

theorem jsor_optJ (a b : Option String) :
    jsor (some (optJ a)) (some (optJ b)) = some (optJ (if truthyS a then a else b)) := by
  by_cases h : truthyS a = true <;> simp [jsor, otruthy_optJ, h]

theorem cleanTextF_jsor_optJ (a b : Option String) :
    cleanTextF (jsor (some (optJ a)) (some (optJ b))) = .ok (cleanText (jsSel a b)) := by
  rw [jsor_optJ, cleanTextF_optJ]
  unfold jsSel
  rfl

theorem jvalStringU_jsor_empty (a : Option String) :
    jvalStringU (jsor (some (optJ a)) (some (.jstr ""))) = jsSel a none := by
  rcases a with _ | s
  · rfl
  · by_cases hs : s = "" <;>
      simp [jsor, otruthy, truthyJ, truthyS, hs, optJ, jvalStringU, jvalString,
        jsSel]

theorem sourceUrlOf_jsor_optJ (a b : Option String) :
    sourceUrlOf (jsor (some (optJ a)) (some (optJ b))) = jsSelOpt a b := by
  rw [jsor_optJ]
  by_cases ha : truthyS a = true
  · rw [if_pos ha]
    rcases a with _ | s
    · simp [truthyS] at ha
    · have hs : ¬(s = "") := by simpa [truthyS] using ha
      simp [sourceUrlOf, optJ, otruthy, truthyJ, hs, jsSelOpt, ha]
  · rw [if_neg ha]
    by_cases hb : truthyS b = true
    · rcases b with _ | t
      · simp [truthyS] at hb
      · have ht : ¬(t = "") := by simpa [truthyS] using hb
        simp [sourceUrlOf, optJ, otruthy, truthyJ, ht, jsSelOpt, ha, hb]
    · rcases b with _ | t
      · simp [sourceUrlOf, optJ, otruthy, truthyJ, jsSelOpt, ha, hb]
      · have ht : t = "" := by
          by_contra hne
          exact hb (by simp [truthyS, hne])
        subst ht
        simp [sourceUrlOf, optJ, otruthy, truthyJ, jsSelOpt, ha, hb]

@[simp] theorem cleanTextF_none : cleanTextF none = .ok "" := rfl

@[simp] theorem except_pure_eq {α : Type} (a : α) :
    (pure a : Except PErr α) = .ok a := rfl

@[simp] theorem jsor_none_left (b : Option JVal) : jsor none b = b := by
  simp [jsor, otruthy]

/-- Claim C8 (amended): for objects carrying the scalar fields as strings,
`note` and `sourceName` are taken from their alternate names (`note` then
`description`, `sourceName` then `source`, an empty primary falling
through), cleaned, and nulled when the cleaned result is empty; `prepTime`,
`cookTime` and `servings` are stringified, cleaned and nulled when empty;
but `sourceUrl` is taken verbatim from `sourceUrl` then `url` with a falsy
value giving null — it is not cleaned. -/
theorem c8_scalar_fields (note desc sn src su url pt ct sv : Option String) :
    normalizeFromObject (mkScalarObj note desc sn src su url pt ct sv) = .ok
      { name := "Untitled Recipe"
        ingredients := []
        preparationSteps := []
        note := nullify (cleanText (jsSel note desc))
        sourceName := nullify (cleanText (jsSel sn src))
        sourceUrl := jsSelOpt su url
        prepTime := nullify (cleanText (jsSel pt none))
        cookTime := nullify (cleanText (jsSel ct none))
        servings := nullify (cleanText (jsSel sv none)) } := by
  unfold normalizeFromObject mkScalarObj
  simp only [jgetE, jlookup, String.reduceEq, reduceIte, except_bind_ok,
    objIngredientsOf, cleanTextF_none, except_pure_eq, jsor_none_left,
    cleanTextF_jsor_optJ, jvalStringU_jsor_empty, sourceUrlOf_jsor_optJ]

@[simp] theorem cleanTextF_jstr (s : String) :
    cleanTextF (some (.jstr s)) = .ok (cleanText s) := rfl

@[simp] theorem jvalString_jstr (s : String) : jvalString (.jstr s) = s := rfl

theorem jsor_some_none (a : Option String) :
    jsor (some (optJ a)) none = if truthyS a then some (optJ a) else none := by
  unfold jsor
  rw [otruthy_optJ]

theorem cleanTextF_jsor_none (a : Option String) :
    cleanTextF (jsor (some (optJ a)) none) = .ok (cleanText (jsSel a none)) := by
  rw [jsor_some_none]
  by_cases h : truthyS a = true
  · rw [if_pos h, cleanTextF_optJ]
    unfold jsSel
    rw [if_pos h]
  · rw [if_neg h, cleanTextF_none]
    unfold jsSel
    rw [if_neg h]
    show Except.ok "" = Except.ok (cleanText "")
    rw [show cleanText "" = "" from rfl]

theorem sourceUrlOf_jsor_none (a : Option String)
    (h : ∀ s, a = some s → ¬(s = "")) :
    sourceUrlOf (jsor (some (optJ a)) none) = a := by
  rw [jsor_some_none]
  rcases a with _ | s
  · simp [truthyS, sourceUrlOf, otruthy]
  · have hs := h s rfl
    simp [truthyS, hs, optJ, sourceUrlOf, otruthy, truthyJ]

theorem nullify_cleanText_jsSel_none (x : Option String) (h : optCleanFixed x) :
    nullify (cleanText (jsSel x none)) = x := by
  rcases x with _ | s
  · unfold jsSel
    simp only [truthyS]
    rw [if_neg (by simp), show (none : Option String).getD "" = "" from rfl,
      show cleanText "" = "" from rfl]
    rfl
  · obtain ⟨hne, hfix⟩ := h
    unfold jsSel
    rw [if_pos (by simp [truthyS, hne]), show (some s).getD "" = s from rfl, hfix]
    unfold nullify
    rw [if_neg hne]

theorem objIngredients_roundtrip (l : List Ingredient)
    (h : ∀ i ∈ l, cleanFixed i.rawIngredient) :
    objIngredients
      (l.map (fun i => .jobj [("rawIngredient", .jstr i.rawIngredient)])) =
      .ok l := by
  induction l with
  | nil => rfl
  | cons a t ih =>
    obtain ⟨hne, hfix⟩ := h a (by simp)
    have hrest : ∀ i ∈ t, cleanFixed i.rawIngredient := fun i hi => h i (by simp [hi])
    simp only [List.map_cons, objIngredients, objIngredient, jgetE, jlookup,
      String.reduceEq, reduceIte, except_bind_ok]
    rw [if_pos (by simp [otruthy, truthyJ, hne]), cleanTextF_jstr, except_bind_ok,
      hfix, ih hrest]
    rfl

theorem map_cleanText_jstr_self (l : List String)
    (h : ∀ s ∈ l, cleanText s = s) :
    (l.map JVal.jstr).map (fun s => cleanText (jvalString s)) = l := by
  induction l with
  | nil => rfl
  | cons a t ih =>
    simp only [List.map_cons, jvalString_jstr, h a (by simp)]
    rw [ih (fun s hs => h s (by simp [hs]))]

theorem filter_str_ne_empty_self (l : List String)
    (h : ∀ a ∈ l, ¬(a = "")) :
    l.filter (fun x => ¬(x = "")) = l := by
  induction l with
  | nil => rfl
  | cons a t ih =>
    rw [List.filter_cons, if_pos (by simp [h a (by simp)]),
      ih (fun x hx => h x (by simp [hx]))]

theorem filter_ing_ne_empty_self (l : List Ingredient)
    (h : ∀ i ∈ l, ¬(i.rawIngredient = "")) :
    l.filter (fun i => ¬(i.rawIngredient = "")) = l := by
  induction l with
  | nil => rfl
  | cons a t ih =>
    rw [List.filter_cons, if_pos (by simp [h a (by simp)]),
      ih (fun x hx => h x (by simp [hx]))]

/-- Claim C3 (amended): the Object Normalizer is idempotent on records all
of whose string fields one more `cleanText` pass leaves unchanged (in
particular on any record free of decodable HTML entities, tags and
uncollapsed whitespace): re-normalizing such a record returns it
unchanged.  It is not idempotent in general, because `cleanText` itself is
not (see the counterexample: a double-encoded entity loses one layer per
pass). -/
theorem c3_idempotent_on_clean (r : Recipe)
    (hn : cleanFixed r.name)
    (hi : ∀ i ∈ r.ingredients, cleanFixed i.rawIngredient)
    (hp : ∀ s ∈ r.preparationSteps, cleanFixed s)
    (hnote : optCleanFixed r.note) (hsn : optCleanFixed r.sourceName)
    (hsu : ∀ s, r.sourceUrl = some s → ¬(s = ""))
    (hpt : optCleanFixed r.prepTime) (hct : optCleanFixed r.cookTime)
    (hsv : optCleanFixed r.servings) :
    normalizeFromObject (recordToJVal r) = .ok r := by
  obtain ⟨name, ings, steps, note, sn, su, pt, ct, sv⟩ := r
  simp only at hn hi hp hnote hsn hsu hpt hct hsv
  unfold normalizeFromObject recordToJVal
  simp only [jgetE, jlookup, String.reduceEq, reduceIte, except_bind_ok,
    objIngredientsOf, cleanTextF_jstr, except_pure_eq]
  rw [hn.2, if_neg hn.1]
  rw [objIngredients_roundtrip ings hi, except_bind_ok]
  rw [filter_ing_ne_empty_self ings (fun i hi2 => (hi i hi2).1)]
  have hsel : jsor (jsor (some (JVal.jarr (steps.map JVal.jstr))) none) none =
      some (JVal.jarr (steps.map JVal.jstr)) := by
    simp [jsor, otruthy, truthyJ]
  rw [hsel]
  simp only [cleanTextF_jsor_none, except_bind_ok,
    nullify_cleanText_jsSel_none note hnote,
    nullify_cleanText_jsSel_none sn hsn, sourceUrlOf_jsor_none su hsu,
    jvalStringU_jsor_empty, nullify_cleanText_jsSel_none pt hpt,
    nullify_cleanText_jsSel_none ct hct, nullify_cleanText_jsSel_none sv hsv]
  rw [map_cleanText_jstr_self steps (fun s hs => (hp s hs).2)]
  rw [filter_str_ne_empty_self steps (fun s hs => (hp s hs).1)]

/-- Witness for `c3_idempotent_on_clean`: a concrete clean record survives
a second normalization unchanged. -/
theorem c3_idempotent_on_clean_witness :
    normalizeFromObject (recordToJVal
      { name := "Pie"
        ingredients := [⟨"2 eggs"⟩]
        preparationSteps := ["Mix well"]
        note := some "Good"
        sourceName := none
        sourceUrl := some "https://x.test/"
        prepTime := some "5 min"
        cookTime := none
        servings := some "4" }) =
    .ok
      { name := "Pie"
        ingredients := [⟨"2 eggs"⟩]
        preparationSteps := ["Mix well"]
        note := some "Good"
        sourceName := none
        sourceUrl := some "https://x.test/"
        prepTime := some "5 min"
        cookTime := none
        servings := some "4" } := by
  apply c3_idempotent_on_clean
  · exact ⟨by decide, by decide⟩
  · intro i hi
    simp only [List.mem_singleton] at hi
    subst hi
    exact ⟨by decide, by decide⟩
  · intro s hs
    simp only [List.mem_singleton] at hs
    subst hs
    exact ⟨by decide, by decide⟩
  · exact ⟨by decide, by decide⟩
  · trivial
  · intro s hs
    injection hs with h
    subst h
    decide
  · exact ⟨by decide, by decide⟩
  · trivial
  · exact ⟨by decide, by decide⟩

/-- Claim C2: when the page yields no usable structured-data record, the
URL pipeline returns the heuristic extractor's record exactly when that
record's name was found (non-empty — always true, since the extractor
falls back to a placeholder) and at least one ingredient or step was
recovered; otherwise it fails with the `ExtractionError` stating that no
structured data or recognizable pattern was found. -/
theorem c2_url_fallback (html url : String) (h : noUsableStructured html url) :
    (normalizeHtml html url = .ok (parseHeuristicHtml html url) ↔
      heuristicUsable html url) ∧
    (¬heuristicUsable html url →
      normalizeHtml html url = .error (.extractionError url)) := by
  have hstage :
      normalizeHtml html url =
        (if heuristicUsable html url then .ok (parseHeuristicHtml html url)
         else .error (.extractionError url)) := by
    unfold noUsableStructured at h
    unfold normalizeHtml heuristicUsable
    rcases hext : extractJsonLd html with _ | v
    · rfl
    · rw [hext] at h
      have h2 : parseSchemaRecipe v url = Except.ok none := h
      simp only [h2]
  by_cases hc : heuristicUsable html url
  · rw [hstage, if_pos hc]
    exact ⟨by simp [hc], fun hk => absurd hc hk⟩
  · rw [hstage, if_neg hc]
    constructor
    · constructor
      · intro hk
        cases hk
      · intro hk
        exact absurd hk hc
    · intro _
      rfl

/-- Witness for `c2_url_fallback`: a page with no structured data and no
recognizable ingredient/step markup classes fails with the
extraction error. -/
theorem c2_url_fallback_witness :
    normalizeHtml "<p>hello world</p>" "https://x.test/" =
      .error (.extractionError "https://x.test/") := by
  apply (c2_url_fallback "<p>hello world</p>" "https://x.test/" ?_).2 ?_
  · unfold noUsableStructured
    rw [show extractJsonLd "<p>hello world</p>" = none from rfl]
    trivial
  · decide

theorem bind_eq_ok {α β : Type} {e : Except PErr α} {f : α → Except PErr β}
    {b : β} (h : (e >>= f) = .ok b) : ∃ a, e = .ok a ∧ f a = .ok b := by
  cases e with
  | error e => cases h
  | ok a => exact ⟨a, rfl, h⟩

theorem string_mk_eq_empty_iff (l : List Char) :
    ((⟨l⟩ : String) = "") ↔ l = [] := by
  show ((⟨l⟩ : String) = ⟨[]⟩) ↔ l = []
  constructor
  · intro h
    injection h
  · intro h
    rw [h]

theorem cleanTextF_ok_image {x : Option JVal} {s : String}
    (h : cleanTextF x = .ok s) : cleanedStr s := by
  have hempty : cleanedStr "" := ⟨"", by decide⟩
  rcases x with _ | v
  · cases h
    exact hempty
  · cases v with
    | jnull => cases h; exact hempty
    | jbool b =>
      simp only [cleanTextF] at h
      by_cases hb : b = true
      · rw [if_pos hb] at h
        exact Except.noConfusion h
      · rw [if_neg hb] at h
        cases h
        exact hempty
    | jnum l =>
      simp only [cleanTextF] at h
      by_cases hz : numZero l = true
      · rw [if_pos hz] at h
        cases h
        exact hempty
      · rw [if_neg hz] at h
        exact Except.noConfusion h
    | jstr s2 =>
      simp only [cleanTextF, Except.ok.injEq] at h
      rw [← h]
      exact ⟨s2, rfl⟩
    | jarr items =>
      rw [show cleanTextF (some (.jarr items)) = .error .typeError from rfl] at h
      cases h
    | jobj fs =>
      rw [show cleanTextF (some (.jobj fs)) = .error .typeError from rfl] at h
      cases h

@[simp] theorem ingredient_mk_raw (s : String) :
    (Ingredient.mk s).rawIngredient = s := rfl

theorem objIngredient_ok_image {i : JVal} {ing : Ingredient}
    (h : objIngredient i = .ok ing) : cleanedStr ing.rawIngredient := by
  rcases i with _ | b | l | s | items | fs
  · rw [show objIngredient .jnull = .error .typeError from rfl] at h
    cases h
  · simp only [objIngredient, jgetE, except_bind_ok, otruthy,
      Bool.false_eq_true, if_false, except_pure_eq, Except.ok.injEq] at h
    rw [← h, ingredient_mk_raw]
    exact ⟨_, rfl⟩
  · simp only [objIngredient, jgetE, except_bind_ok, otruthy,
      Bool.false_eq_true, if_false, except_pure_eq, Except.ok.injEq] at h
    rw [← h, ingredient_mk_raw]
    exact ⟨_, rfl⟩
  · simp only [objIngredient, except_pure_eq, Except.ok.injEq] at h
    rw [← h, ingredient_mk_raw]
    exact ⟨s, rfl⟩
  · simp only [objIngredient, jgetE, except_bind_ok, otruthy,
      Bool.false_eq_true, if_false, except_pure_eq, Except.ok.injEq] at h
    rw [← h, ingredient_mk_raw]
    exact ⟨_, rfl⟩
  · simp only [objIngredient, jgetE, except_bind_ok, except_pure_eq] at h
    by_cases ht : otruthy (jlookup fs "rawIngredient") = true
    · rw [if_pos ht] at h
      obtain ⟨s2, hs2, h⟩ := bind_eq_ok h
      simp only [except_pure_eq, Except.ok.injEq] at h
      rw [← h, ingredient_mk_raw]
      obtain ⟨u, hu⟩ := cleanTextF_ok_image hs2
      exact ⟨u, hu⟩
    · rw [if_neg ht] at h
      simp only [except_pure_eq, Except.ok.injEq] at h
      rw [← h, ingredient_mk_raw]
      exact ⟨_, rfl⟩

theorem stepsOfSub_ok_image {subs : List JVal} {l : List String}
    (h : stepsOfSub subs = .ok l) : ∀ s ∈ l, cleanedStr s := by
  induction subs generalizing l with
  | nil =>
    cases h
    intro s hs
    cases hs
  | cons a t ih =>
    rcases a with _ | b | nl | s2 | items | fs
    · simp only [stepsOfSub] at h
      rw [show jgetE JVal.jnull "text" = Except.error .typeError from rfl] at h
      simp only [except_bind_err] at h
      cases h
    · simp only [stepsOfSub, jgetE, except_bind_ok, otruthy, Bool.false_eq_true,
        if_false, except_pure_eq, List.nil_append] at h
      obtain ⟨tl, htl, h⟩ := bind_eq_ok h
      simp only [except_pure_eq, Except.ok.injEq] at h
      rw [← h]
      exact ih htl
    · simp only [stepsOfSub, jgetE, except_bind_ok, otruthy, Bool.false_eq_true,
        if_false, except_pure_eq, List.nil_append] at h
      obtain ⟨tl, htl, h⟩ := bind_eq_ok h
      simp only [except_pure_eq, Except.ok.injEq] at h
      rw [← h]
      exact ih htl
    · simp only [stepsOfSub, except_pure_eq, except_bind_ok,
        List.singleton_append] at h
      obtain ⟨tl, htl, h⟩ := bind_eq_ok h
      simp only [except_pure_eq, Except.ok.injEq] at h
      rw [← h]
      intro s hs
      rcases List.mem_cons.mp hs with h2 | h2
      · rw [h2]
        exact ⟨s2, rfl⟩
      · exact ih htl s h2
    · simp only [stepsOfSub, jgetE, except_bind_ok, otruthy, Bool.false_eq_true,
        if_false, except_pure_eq, List.nil_append] at h
      obtain ⟨tl, htl, h⟩ := bind_eq_ok h
      simp only [except_pure_eq, Except.ok.injEq] at h
      rw [← h]
      exact ih htl
    · simp only [stepsOfSub, jgetE, except_bind_ok] at h
      by_cases ht : otruthy (jlookup fs "text") = true
      · rw [if_pos ht] at h
        obtain ⟨z, hz, h⟩ := bind_eq_ok h
        simp only [except_pure_eq, except_bind_ok, List.singleton_append] at h
        obtain ⟨tl, htl, h⟩ := bind_eq_ok h
        simp only [except_pure_eq, Except.ok.injEq] at h
        rw [← h]
        intro s hs
        rcases List.mem_cons.mp hs with h2 | h2
        · rw [h2]
          exact cleanTextF_ok_image hz
        · exact ih htl s h2
      · rw [if_neg ht] at h
        simp only [except_pure_eq, except_bind_ok, List.nil_append] at h
        obtain ⟨tl, htl, h⟩ := bind_eq_ok h
        simp only [except_pure_eq, Except.ok.injEq] at h
        rw [← h]
        exact ih htl

theorem stepsOfItem_ok_image {item : JVal} {l : List String}
    (h : stepsOfItem item = .ok l) : ∀ s ∈ l, cleanedStr s := by
  rcases item with _ | b | nl | s2 | items | fs
  · simp only [stepsOfItem] at h
    rw [show jgetE JVal.jnull "text" = Except.error .typeError from rfl] at h
    simp only [except_bind_err] at h
    cases h
  · simp only [stepsOfItem, jgetE, except_bind_ok, otruthy, Bool.false_eq_true,
      if_false, except_pure_eq, Except.ok.injEq] at h
    rw [← h]
    intro s hs
    cases hs
  · simp only [stepsOfItem, jgetE, except_bind_ok, otruthy, Bool.false_eq_true,
      if_false, except_pure_eq, Except.ok.injEq] at h
    rw [← h]
    intro s hs
    cases hs
  · simp only [stepsOfItem, except_pure_eq, Except.ok.injEq] at h
    rw [← h]
    intro s hs
    rcases List.mem_singleton.mp hs with h2
    rw [h2]
    exact ⟨s2, rfl⟩
  · simp only [stepsOfItem, jgetE, except_bind_ok, otruthy, Bool.false_eq_true,
      if_false, except_pure_eq, Except.ok.injEq] at h
    rw [← h]
    intro s hs
    cases hs
  · simp only [stepsOfItem, jgetE, except_bind_ok] at h
    by_cases ht : otruthy (jlookup fs "text") = true
    · rw [if_pos ht] at h
      obtain ⟨s2, hs2, h⟩ := bind_eq_ok h
      simp only [except_pure_eq, Except.ok.injEq] at h
      rw [← h]
      intro s hs
      rcases List.mem_singleton.mp hs with h2
      rw [h2]
      exact cleanTextF_ok_image hs2
    · rw [if_neg ht] at h
      split at h
      · exact stepsOfSub_ok_image h
      · split at h
        · exact stepsOfSub_ok_image h
        · simp only [except_pure_eq, Except.ok.injEq] at h
          rw [← h]
          intro s hs
          cases hs

theorem stepsLoop_ok_image {items : List JVal} {l : List String}
    (h : stepsLoop items = .ok l) : ∀ s ∈ l, cleanedStr s := by
  induction items generalizing l with
  | nil =>
    cases h
    intro s hs
    cases hs
  | cons a t ih =>
    simp only [stepsLoop] at h
    obtain ⟨hd, hhd, h⟩ := bind_eq_ok h
    obtain ⟨tl, htl, h⟩ := bind_eq_ok h
    simp only [except_pure_eq, Except.ok.injEq] at h
    rw [← h]
    intro s hs
    rcases List.mem_append.mp hs with hm | hm
    · exact stepsOfItem_ok_image hhd s hm
    · exact ih htl s hm

theorem mem_filter_ne_empty {l : List String} {x : String}
    (h : x ∈ l.filter (fun y => ¬(y = ""))) : x ∈ l ∧ ¬(x = "") := by
  have h2 := List.mem_filter.mp h
  refine ⟨h2.1, ?_⟩
  have h3 := h2.2
  simp only [decide_not] at h3
  exact of_decide_eq_true (Bool.not_not_eq.mp (by simpa using h3))

/-- Every entry of `parseSchemaSteps`' successful output is non-empty and
cleaned. -/
theorem parseSchemaSteps_ok_props {ins : Option JVal} {l : List String}
    (h : parseSchemaSteps ins = .ok l) :
    ∀ s ∈ l, ¬(s = "") ∧ cleanedStr s := by
  unfold parseSchemaSteps at h
  by_cases htr : otruthy ins = true
  · rw [if_neg (by simp [htr])] at h
    rcases ins with _ | v
    · simp [otruthy] at htr
    · rcases v with _ | b | nl | s2 | items | fs
      · simp [otruthy, truthyJ] at htr
      · simp only [except_bind_ok] at h
        obtain ⟨steps, hsteps, h⟩ := bind_eq_ok h
        simp only [except_pure_eq, Except.ok.injEq] at h
        rw [← h]
        intro s hs
        obtain ⟨hmem, hne⟩ := mem_filter_ne_empty hs
        exact ⟨hne, stepsLoop_ok_image hsteps s hmem⟩
      · simp only [except_bind_ok] at h
        obtain ⟨steps, hsteps, h⟩ := bind_eq_ok h
        simp only [except_pure_eq, Except.ok.injEq] at h
        rw [← h]
        intro s hs
        obtain ⟨hmem, hne⟩ := mem_filter_ne_empty hs
        exact ⟨hne, stepsLoop_ok_image hsteps s hmem⟩
      · simp only [except_pure_eq, Except.ok.injEq] at h
        rw [← h]
        intro s hs
        obtain ⟨hmem, hne⟩ := mem_filter_ne_empty hs
        refine ⟨hne, ?_⟩
        obtain ⟨p, _, hp⟩ := List.mem_map.mp hmem
        exact ⟨⟨p⟩, hp.symm⟩
      · simp only [except_bind_ok] at h
        obtain ⟨steps, hsteps, h⟩ := bind_eq_ok h
        simp only [except_pure_eq, Except.ok.injEq] at h
        rw [← h]
        intro s hs
        obtain ⟨hmem, hne⟩ := mem_filter_ne_empty hs
        exact ⟨hne, stepsLoop_ok_image hsteps s hmem⟩
      · simp only [except_bind_ok] at h
        obtain ⟨steps, hsteps, h⟩ := bind_eq_ok h
        simp only [except_pure_eq, Except.ok.injEq] at h
        rw [← h]
        intro s hs
        obtain ⟨hmem, hne⟩ := mem_filter_ne_empty hs
        exact ⟨hne, stepsLoop_ok_image hsteps s hmem⟩
  · rw [if_pos (by simp [htr])] at h
    cases h
    intro s hs
    cases hs

theorem mem_filter_raw_ne_empty {l : List Ingredient} {x : Ingredient}
    (h : x ∈ l.filter (fun i => ¬(i.rawIngredient = ""))) :
    x ∈ l ∧ ¬(x.rawIngredient = "") := by
  have h2 := List.mem_filter.mp h
  refine ⟨h2.1, ?_⟩
  have h3 := h2.2
  simp only [decide_not] at h3
  exact of_decide_eq_true (Bool.not_not_eq.mp (by simpa using h3))

/-- Every entry of `parseSchemaIngredients` is non-empty and cleaned. -/
theorem parseSchemaIngredients_props (ri : Option JVal) :
    ∀ i ∈ parseSchemaIngredients ri,
      ¬(i.rawIngredient = "") ∧ cleanedStr i.rawIngredient := by
  intro i hi
  unfold parseSchemaIngredients at hi
  by_cases htr : otruthy ri = true
  · rw [if_neg (by simp [htr])] at hi
    obtain ⟨hmem, hne⟩ := mem_filter_raw_ne_empty hi
    refine ⟨hne, ?_⟩
    obtain ⟨v, _, hv⟩ := List.mem_map.mp hmem
    rw [← hv, ingredient_mk_raw]
    exact ⟨_, rfl⟩
  · rw [if_pos (by simp [htr])] at hi
    cases hi

theorem objIngredients_ok_image {items : List JVal} {l : List Ingredient}
    (h : objIngredients items = .ok l) :
    ∀ i ∈ l, cleanedStr i.rawIngredient := by
  induction items generalizing l with
  | nil =>
    cases h
    intro i hi
    cases hi
  | cons a t ih =>
    unfold objIngredients at h
    obtain ⟨hd, hhd, h⟩ := bind_eq_ok h
    obtain ⟨tl, htl, h⟩ := bind_eq_ok h
    cases h
    intro i hi
    rcases List.mem_cons.mp hi with hh | hh
    · subst hh
      exact objIngredient_ok_image hhd
    · exact ih htl i hh

theorem nullify_eq_some {s n : String} (h : nullify s = some n) :
    n = s ∧ ¬(s = "") := by
  unfold nullify at h
  by_cases hs : s = ""
  · rw [if_pos hs] at h
    cases h
  · rw [if_neg hs] at h
    simp only [Option.some.injEq] at h
    exact ⟨h.symm, hs⟩

/-- The core per-field facts about every record the Structured-Data
Extractor's mapper accepts: non-empty cleaned name, non-empty cleaned
ingredients and steps, cleaned note. -/
theorem parseSchemaRecipe_ok_props {v : JVal} {url : String} {r : Recipe}
    (h : parseSchemaRecipe v url = .ok (some r)) :
    (¬(r.name = "") ∧ cleanedStr r.name) ∧
    (∀ i ∈ r.ingredients, ¬(i.rawIngredient = "") ∧ cleanedStr i.rawIngredient) ∧
    (∀ s ∈ r.preparationSteps, ¬(s = "") ∧ cleanedStr s) ∧
    (∀ n, r.note = some n → cleanedStr n) := by
  unfold parseSchemaRecipe at h
  obtain ⟨nv, hnv, h⟩ := bind_eq_ok h
  obtain ⟨name, hname, h⟩ := bind_eq_ok h
  by_cases hne : name = ""
  · rw [if_pos hne] at h
    simp at h
  · rw [if_neg hne] at h
    obtain ⟨riv, hriv, h⟩ := bind_eq_ok h
    obtain ⟨insv, hinsv, h⟩ := bind_eq_ok h
    obtain ⟨steps, hsteps, h⟩ := bind_eq_ok h
    obtain ⟨descv, hdescv, h⟩ := bind_eq_ok h
    obtain ⟨note, hnote, h⟩ := bind_eq_ok h
    obtain ⟨ptv, hptv, h⟩ := bind_eq_ok h
    obtain ⟨ctv, hctv, h⟩ := bind_eq_ok h
    obtain ⟨ryv, hryv, h⟩ := bind_eq_ok h
    simp only [except_pure_eq, Except.ok.injEq, Option.some.injEq] at h
    rw [← h]
    refine ⟨⟨hne, cleanTextF_ok_image hname⟩, ?_, ?_, ?_⟩
    · exact parseSchemaIngredients_props riv
    · exact parseSchemaSteps_ok_props hsteps
    · intro n hn
      obtain ⟨hna, hnb⟩ := nullify_eq_some hn
      rw [hna]
      exact cleanTextF_ok_image hnote

/-- The core per-field facts about every record the Object Normalizer
produces. -/
theorem normalizeFromObject_ok_props {v : JVal} {r : Recipe}
    (h : normalizeFromObject v = .ok r) :
    (¬(r.name = "") ∧ cleanedStr r.name) ∧
    (∀ i ∈ r.ingredients, ¬(i.rawIngredient = "") ∧ cleanedStr i.rawIngredient) ∧
    (∀ s ∈ r.preparationSteps, ¬(s = "") ∧ cleanedStr s) ∧
    (∀ n, r.note = some n → cleanedStr n) ∧
    (∀ n, r.sourceName = some n → cleanedStr n) := by
  unfold normalizeFromObject at h
  obtain ⟨nv, hnv, h⟩ := bind_eq_ok h
  obtain ⟨name0, hname0, h⟩ := bind_eq_ok h
  obtain ⟨ingF, hingF, h⟩ := bind_eq_ok h
  obtain ⟨ingredients, hing, h⟩ := bind_eq_ok h
  obtain ⟨psF, hpsF, h⟩ := bind_eq_ok h
  obtain ⟨stF, hstF, h⟩ := bind_eq_ok h
  obtain ⟨inF, hinF, h⟩ := bind_eq_ok h
  obtain ⟨noteF, hnoteF, h⟩ := bind_eq_ok h
  obtain ⟨descF, hdescF, h⟩ := bind_eq_ok h
  obtain ⟨note, hnote, h⟩ := bind_eq_ok h
  obtain ⟨snF, hsnF, h⟩ := bind_eq_ok h
  obtain ⟨srcF, hsrcF, h⟩ := bind_eq_ok h
  obtain ⟨sourceName, hsn, h⟩ := bind_eq_ok h
  obtain ⟨suF, hsuF, h⟩ := bind_eq_ok h
  obtain ⟨urlF, hurlF, h⟩ := bind_eq_ok h
  obtain ⟨ptF, hptF, h⟩ := bind_eq_ok h
  obtain ⟨ctF, hctF, h⟩ := bind_eq_ok h
  obtain ⟨svF, hsvF, h⟩ := bind_eq_ok h
  simp only [except_pure_eq, Except.ok.injEq] at h
  cases h
  refine ⟨?_, ?_, ?_, ?_, ?_⟩
  · dsimp only
    by_cases hn0 : name0 = ""
    · rw [if_pos hn0]
      exact ⟨by decide, ⟨"Untitled Recipe", by decide⟩⟩
    · rw [if_neg hn0]
      exact ⟨hn0, cleanTextF_ok_image hname0⟩
  · dsimp only
    unfold objIngredientsOf at hing
    split at hing
    · obtain ⟨lst, hlst, hing⟩ := bind_eq_ok hing
      simp only [except_pure_eq, Except.ok.injEq] at hing
      rw [← hing]
      intro i hi
      obtain ⟨hmem, hne⟩ := mem_filter_raw_ne_empty hi
      exact ⟨hne, objIngredients_ok_image hlst i hmem⟩
    · simp only [except_pure_eq, Except.ok.injEq] at hing
      rw [← hing]
      intro i hi
      cases hi
  · dsimp only
    intro s hs
    split at hs
    · obtain ⟨hmem, hne⟩ := mem_filter_ne_empty hs
      refine ⟨hne, ?_⟩
      obtain ⟨w, _, hw⟩ := List.mem_map.mp hmem
      exact ⟨jvalString w, hw.symm⟩
    · cases hs
  · dsimp only
    intro n hn
    obtain ⟨hna, hnb⟩ := nullify_eq_some hn
    rw [hna]
    exact cleanTextF_ok_image hnote
  · dsimp only
    intro n hn
    obtain ⟨hna, hnb⟩ := nullify_eq_some hn
    rw [hna]
    exact cleanTextF_ok_image hsn

/-- Every fragment the ingredient class-scan keeps is a non-empty cleaned
string of the expected length bounds. -/
theorem extractIngredients_mem {html : String} {x : String}
    (h : x ∈ extractIngredients html) :
    ¬(x = "") ∧ cleanedStr x ∧ x.length > 2 ∧ x.length < 200 := by
  unfold extractIngredients at h
  have main : ∀ (caps : List (List Char)),
      x ∈ heurIngFilter (caps.map (fun cap => cleanText (stripHtml ⟨cap⟩))) →
      ¬(x = "") ∧ cleanedStr x ∧ x.length > 2 ∧ x.length < 200 := by
    intro caps hx
    obtain ⟨hmem, hpred⟩ := List.mem_filter.mp hx
    obtain ⟨cap, _, hcap⟩ := List.mem_map.mp hmem
    have hp := of_decide_eq_true hpred
    exact ⟨hp.1, ⟨stripHtml ⟨cap⟩, hcap.symm⟩, hp.2.1, hp.2.2⟩
  by_cases he :
      (heurIngFilter ((classScan ingredientTokens1 html).map
        (fun cap => cleanText (stripHtml ⟨cap⟩)))).isEmpty = true
  · rw [if_neg (by simp [he])] at h
    exact main _ h
  · rw [if_pos (by simp [he])] at h
    exact main _ h

/-- Every fragment the step class-scan keeps is a non-empty cleaned string
longer than 10 characters. -/
theorem extractSteps_mem {html : String} {x : String}
    (h : x ∈ extractSteps html) :
    ¬(x = "") ∧ cleanedStr x ∧ x.length > 10 := by
  unfold extractSteps at h
  have main : ∀ (caps : List (List Char)),
      x ∈ heurStepFilter (caps.map (fun cap => cleanText (stripHtml ⟨cap⟩))) →
      ¬(x = "") ∧ cleanedStr x ∧ x.length > 10 := by
    intro caps hx
    obtain ⟨hmem, hpred⟩ := List.mem_filter.mp hx
    obtain ⟨cap, _, hcap⟩ := List.mem_map.mp hmem
    have hp := of_decide_eq_true hpred
    exact ⟨hp.1, ⟨stripHtml ⟨cap⟩, hcap.symm⟩, hp.2⟩
  by_cases he :
      (heurStepFilter ((classScan stepTokens1 html).map
        (fun cap => cleanText (stripHtml ⟨cap⟩)))).isEmpty = true
  · rw [if_neg (by simp [he])] at h
    exact main _ h
  · rw [if_pos (by simp [he])] at h
    exact main _ h

/-- A non-empty trimmed string is never whitespace-only. -/
theorem jsTrim_ne_not_blank {s : String} (h : ¬(jsTrim s = "")) :
    (jsTrim s).data.all isJsWs = false := by
  have hne : ¬(trimL s.data = []) := by
    intro k
    apply h
    unfold jsTrim
    rw [k]
  show (trimL s.data).all isJsWs = false
  exact trimL_not_all_ws _ hne

/-- A title returned by `extractTitle` is never empty nor whitespace-only. -/
theorem extractTitle_some_props {html : String} {t : String}
    (h : extractTitle html = some t) :
    ¬(t = "") ∧ t.data.all isJsWs = false := by
  unfold extractTitle at h
  split at h
  · split at h
    · dsimp only at h
      split at h
      · rename_i hcond
        simp only [Option.some.injEq] at h
        rw [← h]
        exact ⟨hcond.1, cleanText_not_blank _ hcond.1⟩
      · split at h
        · rename_i hcond2
          simp only [Option.some.injEq] at h
          rw [← h]
          exact ⟨hcond2, jsTrim_ne_not_blank hcond2⟩
        · cases h
    · dsimp only at h
      split at h
      · rename_i hcond2
        simp only [Option.some.injEq] at h
        rw [← h]
        exact ⟨hcond2, jsTrim_ne_not_blank hcond2⟩
      · cases h
  · split at h
    · dsimp only at h
      split at h
      · rename_i hcond
        simp only [Option.some.injEq] at h
        rw [← h]
        exact ⟨hcond.1, cleanText_not_blank _ hcond.1⟩
      · cases h
    · dsimp only at h
      cases h

theorem sliceList_subset {α : Type} (l : List α) (a b : Nat) :
    ∀ x ∈ sliceList l a b, x ∈ l := by
  intro x hx
  unfold sliceList at hx
  exact List.drop_subset _ _ (List.take_subset _ _ hx)

/-- The segmentation step returns either the first line or the placeholder
as the name line. -/
theorem segmentLines_name (lines : List (List Char)) (l0 : List Char) :
    (segmentLines lines l0).1 = l0 ∨
    (segmentLines lines l0).1 = "Untitled Recipe".data := by
  unfold segmentLines
  dsimp only
  by_cases hc : (jsFindIndex isIngHeader lines).isSome = true ∨
      (jsFindIndex isStepHeader lines).isSome = true
  · rw [if_pos hc]
    dsimp only
    split
    · exact Or.inl rfl
    · exact Or.inr rfl
  · rw [if_neg hc]
    rcases hK : jsFindIndex isNumberedStep (lines.drop 1) with _ | k
    · exact Or.inl rfl
    · exact Or.inl rfl

/-- Every ingredient line chosen by the segmentation step is one of the
input lines. -/
theorem segmentLines_ing_mem (lines : List (List Char)) (l0 : List Char) :
    ∀ x ∈ (segmentLines lines l0).2.1, x ∈ lines := by
  intro x hx
  unfold segmentLines at hx
  dsimp only at hx
  by_cases hc : (jsFindIndex isIngHeader lines).isSome = true ∨
      (jsFindIndex isStepHeader lines).isSome = true
  · rw [if_pos hc] at hx
    dsimp only at hx
    rcases hI : jsFindIndex isIngHeader lines with _ | i
    · rw [hI] at hx
      cases hx
    · rw [hI] at hx
      exact sliceList_subset _ _ _ x hx
  · rw [if_neg hc] at hx
    rcases hK : jsFindIndex isNumberedStep (lines.drop 1) with _ | k
    · rw [hK] at hx
      exact List.drop_subset _ _ hx
    · rw [hK] at hx
      exact List.drop_subset _ _ (List.take_subset _ _ hx)

/-- Every step line chosen by the segmentation step is one of the input
lines. -/
theorem segmentLines_step_mem (lines : List (List Char)) (l0 : List Char) :
    ∀ x ∈ (segmentLines lines l0).2.2, x ∈ lines := by
  intro x hx
  unfold segmentLines at hx
  dsimp only at hx
  by_cases hc : (jsFindIndex isIngHeader lines).isSome = true ∨
      (jsFindIndex isStepHeader lines).isSome = true
  · rw [if_pos hc] at hx
    dsimp only at hx
    rcases hS : jsFindIndex isStepHeader lines with _ | s
    · rw [hS] at hx
      cases hx
    · rw [hS] at hx
      exact sliceList_subset _ _ _ x hx
  · rw [if_neg hc] at hx
    rcases hK : jsFindIndex isNumberedStep (lines.drop 1) with _ | k
    · rw [hK] at hx
      cases hx
    · rw [hK] at hx
      exact List.drop_subset _ _ (List.drop_subset _ _ hx)

/-- Every line the Text Segmenter works on is trimmed, non-empty and not
whitespace-only. -/
theorem mem_linesOfText {text : String} {l : List Char}
    (h : l ∈ linesOfText text) : ¬(l = []) ∧ l.all isJsWs = false := by
  unfold linesOfText at h
  obtain ⟨hm, hp⟩ := List.mem_filter.mp h
  obtain ⟨w, hw, hwl⟩ := List.mem_map.mp hm
  rw [← hwl]
  rw [← hwl] at hp
  have hne : ¬(trimL w = []) := by
    intro k
    rw [k] at hp
    simp at hp
  exact ⟨hne, trimL_not_all_ws w hne⟩

/-- Shape of every record the Text Segmenter accepts: the name is the
placeholder or one of the trimmed lines, every ingredient is a trimmed
bullet-stripped line longer than 1, and every step is a trimmed
number-stripped line longer than 5.  No further cleaning is applied. -/
theorem normalizeFromText_ok_shape {text : String} {r : Recipe}
    (h : normalizeFromText text = .ok r) :
    (r.name.data = "Untitled Recipe".data ∨ r.name.data ∈ linesOfText text) ∧
    (∀ i ∈ r.ingredients, (∃ l, l ∈ linesOfText text ∧
        i.rawIngredient.data = trimL (stripBullet l)) ∧
      i.rawIngredient.data.length > 1) ∧
    (∀ s ∈ r.preparationSteps, (∃ l, l ∈ linesOfText text ∧
        s.data = trimL (stripNum l)) ∧ s.data.length > 5) := by
  unfold normalizeFromText at h
  rcases hl : linesOfText text with _ | ⟨l0, rest⟩
  · rw [hl] at h
    cases h
  · rw [hl] at h
    dsimp only at h
    simp only [Except.ok.injEq] at h
    rw [← h]
    dsimp only
    refine ⟨?_, ?_, ?_⟩
    · rcases segmentLines_name (l0 :: rest) l0 with hn | hn
      · rw [hn]
        exact Or.inr (List.mem_cons_self l0 rest)
      · rw [hn]
        exact Or.inl rfl
    · intro i hi
      obtain ⟨w, hw, hgw⟩ := List.mem_map.mp hi
      obtain ⟨hwm, hwp⟩ := List.mem_filter.mp hw
      obtain ⟨l, hlm, hfl⟩ := List.mem_map.mp hwm
      rw [← hgw, ingredient_mk_raw, string_mk_data]
      have hlen := of_decide_eq_true hwp
      refine ⟨⟨l, ?_, ?_⟩, hlen⟩
      · exact segmentLines_ing_mem (l0 :: rest) l0 l hlm
      · rw [← hfl]
    · intro s hs
      obtain ⟨w, hw, hgw⟩ := List.mem_map.mp hs
      obtain ⟨hwm, hwp⟩ := List.mem_filter.mp hw
      obtain ⟨l, hlm, hfl⟩ := List.mem_map.mp hwm
      rw [← hgw, string_mk_data]
      have hlen := of_decide_eq_true hwp
      refine ⟨⟨l, ?_, ?_⟩, hlen⟩
      · exact segmentLines_step_mem (l0 :: rest) l0 l hlm
      · rw [← hfl]

/-- A non-empty cleaned string is never whitespace-only. -/
theorem cleaned_ne_not_blank {x : String} (hne : ¬(x = ""))
    (hc : cleanedStr x) : x.data.all isJsWs = false := by
  obtain ⟨u, rfl⟩ := hc
  exact cleanText_not_blank u hne

theorem string_ne_of_data_ne {x : String} (h : ¬(x.data = [])) :
    ¬(x = "") := by
  intro k
  apply h
  rw [k]

/-- The Text Segmenter's records satisfy the C9 invariant. -/
theorem recipeInv_text {text : String} {r : Recipe}
    (h : normalizeFromText text = .ok r) : recipeInv r := by
  obtain ⟨hn, hi, hs⟩ := normalizeFromText_ok_shape h
  refine ⟨?_, ?_, ?_⟩
  · rcases hn with hn | hn
    · constructor
      · apply string_ne_of_data_ne
        rw [hn]
        decide
      · rw [hn]
        decide
    · obtain ⟨hne, hnb⟩ := mem_linesOfText hn
      exact ⟨string_ne_of_data_ne hne, hnb⟩
  · intro i hi2
    obtain ⟨⟨l, hlm, heq⟩, hlen⟩ := hi i hi2
    have hne : ¬(i.rawIngredient.data = []) := by
      intro k
      rw [k] at hlen
      simp at hlen
    refine ⟨string_ne_of_data_ne hne, ?_⟩
    rw [heq]
    apply trimL_not_all_ws
    rw [← heq]
    exact hne
  · intro s hs2
    obtain ⟨⟨l, hlm, heq⟩, hlen⟩ := hs s hs2
    have hne : ¬(s.data = []) := by
      intro k
      rw [k] at hlen
      simp at hlen
    refine ⟨string_ne_of_data_ne hne, ?_⟩
    rw [heq]
    apply trimL_not_all_ws
    rw [← heq]
    exact hne

/-- The Object Normalizer's records satisfy the C9 invariant. -/
theorem recipeInv_obj {v : JVal} {r : Recipe}
    (h : normalizeFromObject v = .ok r) : recipeInv r := by
  obtain ⟨⟨hne, hcl⟩, hing, hst, -, -⟩ := normalizeFromObject_ok_props h
  refine ⟨⟨hne, cleaned_ne_not_blank hne hcl⟩, ?_, ?_⟩
  · intro i hi
    obtain ⟨a, b⟩ := hing i hi
    exact ⟨a, cleaned_ne_not_blank a b⟩
  · intro s hs
    obtain ⟨a, b⟩ := hst s hs
    exact ⟨a, cleaned_ne_not_blank a b⟩

/-- The Structured-Data Extractor's records satisfy the C9 invariant. -/
theorem recipeInv_schema {v : JVal} {url : String} {r : Recipe}
    (h : parseSchemaRecipe v url = .ok (some r)) : recipeInv r := by
  obtain ⟨⟨hne, hcl⟩, hing, hst, -⟩ := parseSchemaRecipe_ok_props h
  refine ⟨⟨hne, cleaned_ne_not_blank hne hcl⟩, ?_, ?_⟩
  · intro i hi
    obtain ⟨a, b⟩ := hing i hi
    exact ⟨a, cleaned_ne_not_blank a b⟩
  · intro s hs
    obtain ⟨a, b⟩ := hst s hs
    exact ⟨a, cleaned_ne_not_blank a b⟩

/-- The Heuristic Extractor's records satisfy the C9 invariant. -/
theorem recipeInv_heur (html url : String) :
    recipeInv (parseHeuristicHtml html url) := by
  unfold parseHeuristicHtml
  refine ⟨?_, ?_, ?_⟩
  · dsimp only
    rcases hT : extractTitle html with _ | t
    · exact ⟨by decide, by decide⟩
    · dsimp only
      by_cases ht : t = ""
      · rw [if_pos ht]
        exact ⟨by decide, by decide⟩
      · rw [if_neg ht]
        exact extractTitle_some_props hT
  · dsimp only
    intro i hi
    obtain ⟨x, hx, hxi⟩ := List.mem_map.mp hi
    obtain ⟨a, b, -, -⟩ := extractIngredients_mem hx
    rw [← hxi, ingredient_mk_raw]
    exact ⟨a, cleaned_ne_not_blank a b⟩
  · dsimp only
    intro s hs
    obtain ⟨a, b, -⟩ := extractSteps_mem hs
    exact ⟨a, cleaned_ne_not_blank a b⟩

/-- C9: every canonical record returned by any of the four terminal
pipelines (text segmenter, object normalizer, structured-data extractor,
heuristic extractor) has a non-empty name, and neither its ingredients
nor its preparation steps contain an empty or whitespace-only entry. -/
theorem c9_record_invariants :
    (∀ (text : String) (r : Recipe),
        normalizeFromText text = .ok r → recipeInv r) ∧
    (∀ (v : JVal) (r : Recipe),
        normalizeFromObject v = .ok r → recipeInv r) ∧
    (∀ (v : JVal) (url : String) (r : Recipe),
        parseSchemaRecipe v url = .ok (some r) → recipeInv r) ∧
    (∀ (html url : String), recipeInv (parseHeuristicHtml html url)) :=
  ⟨fun _ _ h => recipeInv_text h, fun _ _ h => recipeInv_obj h,
   fun _ _ _ h => recipeInv_schema h, fun html url => recipeInv_heur html url⟩

/-- Witness for C9 at a concrete text-segmenter input. -/
theorem c9_record_invariants_witness :
    recipeInv
      { name := "Tacos"
        ingredients := [⟨"1 lb beef"⟩, ⟨"tortillas"⟩]
        preparationSteps := ["Cook beef", "Fill tortillas"]
        note := none
        sourceName := none
        sourceUrl := none
        prepTime := none
        cookTime := none
        servings := none } :=
  c9_record_invariants.1
    "Tacos\nIngredients\n- 1 lb beef\n- tortillas\nInstructions\n1. Cook beef\n2. Fill tortillas"
    _ (by decide)

/-- C1 (amended): the structured-data extractor and the object normalizer
apply the shared cleaning utility to the name and to every ingredient and
step; the heuristic extractor applies it to every ingredient and step; but
the Text Segmenter applies no cleaning at all — its name is the placeholder
or a trimmed input line, and its ingredients and steps are trimmed input
lines with only a leading bullet or step number stripped. -/
theorem c1_cleaning_pipelines :
    (∀ (v : JVal) (url : String) (r : Recipe),
        parseSchemaRecipe v url = .ok (some r) →
        cleanedStr r.name ∧
        (∀ i ∈ r.ingredients, cleanedStr i.rawIngredient) ∧
        (∀ s ∈ r.preparationSteps, cleanedStr s)) ∧
    (∀ (v : JVal) (r : Recipe), normalizeFromObject v = .ok r →
        cleanedStr r.name ∧
        (∀ i ∈ r.ingredients, cleanedStr i.rawIngredient) ∧
        (∀ s ∈ r.preparationSteps, cleanedStr s)) ∧
    (∀ (html url : String),
        (∀ i ∈ (parseHeuristicHtml html url).ingredients,
          cleanedStr i.rawIngredient) ∧
        (∀ s ∈ (parseHeuristicHtml html url).preparationSteps,
          cleanedStr s)) ∧
    (∀ (text : String) (r : Recipe), normalizeFromText text = .ok r →
        (r.name.data = "Untitled Recipe".data ∨
          r.name.data ∈ linesOfText text) ∧
        (∀ i ∈ r.ingredients, ∃ l, l ∈ linesOfText text ∧
            i.rawIngredient.data = trimL (stripBullet l)) ∧
        (∀ s ∈ r.preparationSteps, ∃ l, l ∈ linesOfText text ∧
            s.data = trimL (stripNum l))) := by
  refine ⟨?_, ?_, ?_, ?_⟩
  · intro v url r h
    obtain ⟨⟨-, hcl⟩, hing, hst, -⟩ := parseSchemaRecipe_ok_props h
    exact ⟨hcl, fun i hi => (hing i hi).2, fun s hs => (hst s hs).2⟩
  · intro v r h
    obtain ⟨⟨-, hcl⟩, hing, hst, -, -⟩ := normalizeFromObject_ok_props h
    exact ⟨hcl, fun i hi => (hing i hi).2, fun s hs => (hst s hs).2⟩
  · intro html url
    constructor
    · intro i hi
      unfold parseHeuristicHtml at hi
      dsimp only at hi
      obtain ⟨x, hx, hxi⟩ := List.mem_map.mp hi
      obtain ⟨-, b, -, -⟩ := extractIngredients_mem hx
      rw [← hxi, ingredient_mk_raw]
      exact b
    · intro s hs
      unfold parseHeuristicHtml at hs
      dsimp only at hs
      obtain ⟨-, b, -⟩ := extractSteps_mem hs
      exact b
  · intro text r h
    obtain ⟨hn, hi, hs⟩ := normalizeFromText_ok_shape h
    refine ⟨hn, ?_, ?_⟩
    · intro i hi2
      obtain ⟨⟨l, hlm, heq⟩, -⟩ := hi i hi2
      exact ⟨l, hlm, heq⟩
    · intro s hs2
      obtain ⟨⟨l, hlm, heq⟩, -⟩ := hs s hs2
      exact ⟨l, hlm, heq⟩

/-- Witness for the amended C1 at a concrete Text-Segmenter input: the
returned ingredient is a trimmed bullet-stripped input line. -/
theorem c1_cleaning_pipelines_witness :
    ∃ l, l ∈ linesOfText "A &amp; B\nsecond line x" ∧
      (Ingredient.mk "second line x").rawIngredient.data =
        trimL (stripBullet l) := by
  have h :=
    (c1_cleaning_pipelines.2.2.2 "A &amp; B\nsecond line x"
      { name := "A &amp; B"
        ingredients := [⟨"second line x"⟩]
        preparationSteps := []
        note := none
        sourceName := none
        sourceUrl := none
        prepTime := none
        cookTime := none
        servings := none } (by decide)).2.1
  exact h (Ingredient.mk "second line x") (by decide)

/-- `findIndex` returns the position of the first match: all of `pre`
fails the predicate and `x` satisfies it. -/
theorem jsFindIndex_first (p : List Char → Bool) (pre rest : List (List Char))
    (x : List Char) (hpre : ∀ l ∈ pre, p l = false) (hx : p x = true) :
    jsFindIndex p (pre ++ x :: rest) = some pre.length := by
  induction pre with
  | nil =>
    show jsFindIndex p (x :: rest) = some 0
    unfold jsFindIndex
    rw [if_pos hx]
  | cons a t ihp =>
    show jsFindIndex p (a :: (t ++ x :: rest)) = some (a :: t).length
    have ha : ¬(p a = true) := by
      rw [hpre a (List.mem_cons_self a t)]
      exact Bool.false_ne_true
    unfold jsFindIndex
    rw [if_neg ha, ihp (fun l hl => hpre l (List.mem_cons_of_mem a hl))]
    rfl

/-- With an ingredients header at position `pre.length` and the first step
header after `mid`, the segmentation step selects exactly `mid` as the
ingredient lines and exactly `post` as the step lines. -/
theorem segmentLines_two_headers (pre mid post : List (List Char))
    (hI sH l0 : List Char)
    (hpreI : ∀ l ∈ pre, isIngHeader l = false)
    (hpreS : ∀ l ∈ pre, isStepHeader l = false)
    (hih : isIngHeader hI = true)
    (hihS : isStepHeader hI = false)
    (hmidS : ∀ l ∈ mid, isStepHeader l = false)
    (hsh : isStepHeader sH = true) :
    (segmentLines (pre ++ hI :: (mid ++ sH :: post)) l0).2.1 = mid ∧
    (segmentLines (pre ++ hI :: (mid ++ sH :: post)) l0).2.2 = post := by
  have hIdx : jsFindIndex isIngHeader (pre ++ hI :: (mid ++ sH :: post)) =
      some pre.length :=
    jsFindIndex_first _ _ _ _ hpreI hih
  have hShape : pre ++ hI :: (mid ++ sH :: post) =
      (pre ++ hI :: mid) ++ sH :: post := by
    simp
  have hSdx : jsFindIndex isStepHeader (pre ++ hI :: (mid ++ sH :: post)) =
      some (pre.length + 1 + mid.length) := by
    rw [hShape]
    rw [jsFindIndex_first isStepHeader (pre ++ hI :: mid) post sH ?hp hsh]
    · congr 1
      simp only [List.length_append, List.length_cons]
      omega
    · intro l hl
      rcases List.mem_append.mp hl with h1 | h1
      · exact hpreS l h1
      · rcases List.mem_cons.mp h1 with h2 | h2
        · rw [h2]
          exact hihS
        · exact hmidS l h2
  have hdrop1 : (pre ++ hI :: (mid ++ sH :: post)).drop (pre.length + 1) =
      mid ++ sH :: post := by
    have e1 : (pre ++ [hI]).length = pre.length + 1 := by
      simp
    rw [show pre ++ hI :: (mid ++ sH :: post) =
        (pre ++ [hI]) ++ (mid ++ sH :: post) by simp, ← e1, List.drop_left]
  have hdrop2 : (pre ++ hI :: (mid ++ sH :: post)).drop
      (pre.length + 1 + mid.length + 1) = post := by
    have e2 : ((pre ++ hI :: mid) ++ [sH]).length =
        pre.length + 1 + mid.length + 1 := by
      simp only [List.length_append, List.length_cons, List.length_nil]
      omega
    rw [show pre ++ hI :: (mid ++ sH :: post) =
        ((pre ++ hI :: mid) ++ [sH]) ++ post by simp, ← e2, List.drop_left]
  have hlen : (pre ++ hI :: (mid ++ sH :: post)).length =
      pre.length + 1 + mid.length + 1 + post.length := by
    simp only [List.length_append, List.length_cons]
    omega
  unfold segmentLines
  dsimp only
  rw [hIdx, hSdx,
    if_pos (show (some pre.length).isSome = true ∨
      (some (pre.length + 1 + mid.length)).isSome = true from Or.inl rfl)]
  constructor
  · show sliceList (pre ++ hI :: (mid ++ sH :: post)) (pre.length + 1)
        (if pre.length + 1 + mid.length > pre.length
          then pre.length + 1 + mid.length
          else (pre ++ hI :: (mid ++ sH :: post)).length) = mid
    rw [if_pos (by omega)]
    unfold sliceList
    rw [hdrop1, show pre.length + 1 + mid.length - (pre.length + 1) =
        mid.length by omega, List.take_left]
  · show sliceList (pre ++ hI :: (mid ++ sH :: post))
        (pre.length + 1 + mid.length + 1)
        (if pre.length > pre.length + 1 + mid.length then pre.length
          else (pre ++ hI :: (mid ++ sH :: post)).length) = post
    rw [if_neg (by omega)]
    unfold sliceList
    rw [hdrop2, hlen, show pre.length + 1 + mid.length + 1 + post.length -
        (pre.length + 1 + mid.length + 1) = post.length by omega,
      List.take_length]

/-- C5: for every text whose trimmed non-empty lines consist of some
leading lines, a first-matching ingredients header, the lines between the
two headers, a first-matching instructions header, and the lines after it,
the Text Segmenter populates `ingredients` from exactly the between-lines
and `preparationSteps` from exactly the after-lines, in original order
(each line only bullet- or number-stripped and filtered by the length
thresholds); and on the concrete Tacos input the result has name "Tacos",
ingredients ["1 lb beef", "tortillas"] and steps
["Cook beef", "Fill tortillas"]. -/
theorem c5_two_headers :
    (∀ (text : String) (pre mid post : List (List Char))
        (hI sH : List Char) (r : Recipe),
      linesOfText text = pre ++ hI :: (mid ++ sH :: post) →
      (∀ l ∈ pre, isIngHeader l = false) →
      (∀ l ∈ pre, isStepHeader l = false) →
      isIngHeader hI = true →
      isStepHeader hI = false →
      (∀ l ∈ mid, isStepHeader l = false) →
      isStepHeader sH = true →
      normalizeFromText text = .ok r →
      r.ingredients = ((mid.map (fun l => trimL (stripBullet l))).filter
          (fun l => l.length > 1)).map (fun l => Ingredient.mk ⟨l⟩) ∧
      r.preparationSteps = ((post.map (fun l => trimL (stripNum l))).filter
          (fun l => l.length > 5)).map (fun l => (⟨l⟩ : String))) ∧
    normalizeFromText
      "Tacos\nIngredients\n- 1 lb beef\n- tortillas\nInstructions\n1. Cook beef\n2. Fill tortillas" =
      .ok
        { name := "Tacos"
          ingredients := [⟨"1 lb beef"⟩, ⟨"tortillas"⟩]
          preparationSteps := ["Cook beef", "Fill tortillas"]
          note := none
          sourceName := none
          sourceUrl := none
          prepTime := none
          cookTime := none
          servings := none } := by
  constructor
  · intro text pre mid post hI sH r hL hpreI hpreS hih hihS hmidS hsh h
    have hseg := segmentLines_two_headers pre mid post hI sH
    unfold normalizeFromText at h
    rcases pre with _ | ⟨p0, pre'⟩
    · simp only [List.nil_append] at hL
      rw [hL] at h
      dsimp only at h
      simp only [Except.ok.injEq] at h
      rw [← h]
      dsimp only
      have hs2 := hseg hI (by intro l hl; cases hl) (by intro l hl; cases hl)
        hih hihS hmidS hsh
      simp only [List.nil_append] at hs2
      rw [hs2.1, hs2.2]
      exact ⟨rfl, rfl⟩
    · simp only [List.cons_append] at hL
      rw [hL] at h
      dsimp only at h
      simp only [Except.ok.injEq] at h
      rw [← h]
      dsimp only
      have hs2 := hseg p0 hpreI hpreS hih hihS hmidS hsh
      simp only [List.cons_append] at hs2
      rw [hs2.1, hs2.2]
      exact ⟨rfl, rfl⟩
  · decide

/-- Witness for C5 at the concrete Tacos input, applying the quantified
part at its seven trimmed lines. -/
theorem c5_two_headers_witness :
    ({ name := "Tacos"
       ingredients := [⟨"1 lb beef"⟩, ⟨"tortillas"⟩]
       preparationSteps := ["Cook beef", "Fill tortillas"]
       note := none
       sourceName := none
       sourceUrl := none
       prepTime := none
       cookTime := none
       servings := none } : Recipe).ingredients =
      (((["- 1 lb beef".data, "- tortillas".data].map
          (fun l => trimL (stripBullet l))).filter
        (fun l => l.length > 1)).map (fun l => Ingredient.mk ⟨l⟩)) ∧
    ({ name := "Tacos"
       ingredients := [⟨"1 lb beef"⟩, ⟨"tortillas"⟩]
       preparationSteps := ["Cook beef", "Fill tortillas"]
       note := none
       sourceName := none
       sourceUrl := none
       prepTime := none
       cookTime := none
       servings := none } : Recipe).preparationSteps =
      (((["1. Cook beef".data, "2. Fill tortillas".data].map
          (fun l => trimL (stripNum l))).filter
        (fun l => l.length > 5)).map (fun l => (⟨l⟩ : String))) :=
  c5_two_headers.1
    "Tacos\nIngredients\n- 1 lb beef\n- tortillas\nInstructions\n1. Cook beef\n2. Fill tortillas"
    ["Tacos".data] ["- 1 lb beef".data, "- tortillas".data]
    ["1. Cook beef".data, "2. Fill tortillas".data]
    "Ingredients".data "Instructions".data _
    (by decide) (by decide) (by decide) (by decide) (by decide) (by decide)
    (by decide) (by decide)

end AnylistSpec
